import Mathlib

/-!
Verification of the sudoku-solver repository (Go).

The Go program solves 9×9 sudoku puzzles by recursive backtracking with a
most-constrained-cell heuristic.  This file gives a shallow embedding of the
program's data model and operations and proves/refutes the specification
claims about it.

Source correspondence (src/sudoku.go):
  * `Game`            — struct Game (board [][]int, remaining, backtracks)
  * `makeMove`        — Game.MakeMove
  * `unmakeMove`      — Game.UnmakeMove
  * `cellCandidatesCore` — body of Game.CellCandidates (after the bounds guard)
  * `cellCandidates`  — Game.CellCandidates including the bounds guard and
                        runtime index checks
  * `nextEmptyCell`   — Game.NextEmptyCell
  * `recursiveSolver` — recursiveSolver, with an explicit fuel parameter;
                        `none` means the recursion did not finish within
                        the given fuel
  * `readGame`        — readGame (lines modelled as lists of rune code points)

Cell values are 0..9 (0 = empty); we use `Fin 10`, which is the value range
maintained by every execution of the Go program (the parser stores c-'0' for
a digit rune c, and the solver stores candidate values 1..9).
-/

set_option maxRecDepth 4000
set_option maxHeartbeats 1000000

namespace Sudoku

/-- A 9×9 board: `b row col` is the cell value, 0 = empty (Go: `board [][]int`,
always allocated 9×9 by NewGame). -/
abbrev BoardFun := Fin 9 → Fin 9 → Fin 10

/-- Go struct `Game`: the board plus the `remaining` and `backtracks` counters
(Go `int`, modelled as `Int`). -/
structure Game where
  board : BoardFun
  remaining : Int
  backtracks : Int

instance : DecidableEq Game := fun a b =>
  if h1 : a.board = b.board then
    if h2 : a.remaining = b.remaining then
      if h3 : a.backtracks = b.backtracks then
        isTrue (by cases a; cases b; simp_all)
      else isFalse fun h => h3 (congrArg Game.backtracks h)
    else isFalse fun h => h2 (congrArg Game.remaining h)
  else isFalse fun h => h1 (congrArg Game.board h)

/-- Go `NewGame`: empty board, remaining = 81, backtracks = 0. -/
def newGame : Game :=
  { board := fun _ _ => 0, remaining := 81, backtracks := 0 }

/-- Go `Game.ValidSolution`: `remaining == 0`. -/
def validSolution (g : Game) : Bool := g.remaining == 0

/-- The slice assignment `g.board[row][col] = val`. -/
def setCell (b : BoardFun) (row col : Fin 9) (val : Fin 10) : BoardFun :=
  fun r c => if r = row ∧ c = col then val else b r c

/-- Go `Game.MakeMove`: if the cell is 0 and val ≠ 0 decrement `remaining`;
then store val in the cell. -/
def makeMove (g : Game) (row col : Fin 9) (val : Fin 10) : Game :=
  { g with
    remaining := if g.board row col = 0 ∧ val ≠ 0 then g.remaining - 1 else g.remaining
    board := setCell g.board row col val }

/-- Go `Game.UnmakeMove`: if the cell is non-zero increment `remaining` and
clear the cell; always increment `backtracks`. -/
def unmakeMove (g : Game) (row col : Fin 9) : Game :=
  if g.board row col ≠ 0 then
    { board := setCell g.board row col 0
      remaining := g.remaining + 1
      backtracks := g.backtracks + 1 }
  else { g with backtracks := g.backtracks + 1 }

/-- The candidate slice after the initialisation loop of Go
`Game.CellCandidates`: `make([]bool, DIM+1)` followed by
`for i := 1; i <= DIM; i++ { candidates[i] = true }`. -/
def initialCandidates : List Bool :=
  [false, true, true, true, true, true, true, true, true, true]

/-- Index arithmetic of the section loop of Go `Game.CellCandidates`:
`rowStart := row / 3 * 3` and the loop offset. -/
def boxStart (i : Fin 9) (d : Fin 3) : Fin 9 :=
  ⟨i.val / 3 * 3 + d.val, by omega⟩

/-- Body of Go `Game.CellCandidates` after the bounds guard: start from
`initialCandidates` and clear the index of every value present in the cell's
row, column, and 3×3 section. -/
def cellCandidatesCore (b : BoardFun) (row col : Fin 9) : List Bool :=
  (List.finRange 3).foldl
    (fun cs ri =>
      (List.finRange 3).foldl
        (fun cs2 ci => cs2.set (b (boxStart row ri) (boxStart col ci)).val false) cs)
    ((List.finRange 9).foldl (fun cs i => cs.set (b i col).val false)
      ((List.finRange 9).foldl (fun cs i => cs.set (b row i).val false)
        initialCandidates))

/-- The candidate-counting loop of Go `Game.NextEmptyCell`:
`for i := 1; i <= DIM; i++ { if candidates[i] { cur++ } }`. -/
def countCandidates (cands : List Bool) : Nat :=
  (List.range' 1 9).foldl (fun cur i => if cands.getD i false then cur + 1 else cur) 0

/-- Number of legal candidates of a cell, as Go `NextEmptyCell` computes it. -/
def candCount (b : BoardFun) (r c : Fin 9) : Nat :=
  countCandidates (cellCandidatesCore b r c)

/-- All cells in row-major order, the iteration order of the nested
`range g.board` loops. -/
def allCells : List (Fin 9 × Fin 9) :=
  (List.finRange 9).flatMap fun r => (List.finRange 9).map fun c => (r, c)

/-- Loop body of Go `Game.NextEmptyCell`: state is (best cell, min count). -/
def nextStep (b : BoardFun) (st : (Fin 9 × Fin 9) × Nat) (rc : Fin 9 × Fin 9) :
    (Fin 9 × Fin 9) × Nat :=
  if b rc.1 rc.2 = 0 then
    let cur := candCount b rc.1 rc.2
    if cur < st.2 then (rc, cur) else st
  else st

/-- Go `Game.NextEmptyCell`: scan all cells row-major, keep the empty cell
with the fewest candidates (strict improvement only, so first wins ties);
the named return values start at (0,0) and `min` starts at DIM+1 = 10. -/
def nextEmptyCell (g : Game) : Fin 9 × Fin 9 :=
  (allCells.foldl (nextStep g.board) ((0, 0), 10)).1

/-- The `for val, avail := range candidates` loop of Go `recursiveSolver`:
`vals` is the list of remaining slice indices (the candidate slice always has
length 10, so the indices are 0..9); `solve` is the recursive call made on
the mutated game. -/
def tryCandidates (solve : Game → Option (Bool × Game)) (row col : Fin 9)
    (cands : List Bool) : Game → List (Fin 10) → Option (Bool × Game)
  | g, [] => some (false, g)
  | g, val :: vals =>
    if cands.getD val.val false then
      match solve (makeMove g row col val) with
      | none => none
      | some (true, g1) => some (true, g1)
      | some (false, g1) => tryCandidates solve row col cands (unmakeMove g1 row col) vals
    else tryCandidates solve row col cands g vals

/-- Go `recursiveSolver` with an explicit fuel parameter (the Go function has
no fuel; `none` models a recursion that does not finish within the given
fuel).  Returns the solved flag together with the final `Game` state. -/
def recursiveSolver : Nat → Game → Option (Bool × Game)
  | 0, _ => none
  | fuel + 1, g =>
    if g.remaining = 0 then some (true, g)
    else
      let rc := nextEmptyCell g
      tryCandidates (recursiveSolver fuel) rc.1 rc.2
        (cellCandidatesCore g.board rc.1 rc.2) g (List.finRange 10)

/-- Number of empty cells of a board (the Go code maintains this in
`remaining`). -/
def numZeros (b : BoardFun) : Nat :=
  (Finset.univ.filter fun rc : Fin 9 × Fin 9 => b rc.1 rc.2 = 0).card

/-- Data-model invariant: `remaining` equals the number of empty cells. -/
def RemInv (g : Game) : Prop := g.remaining = (numZeros g.board : Int)

/-- Two distinct cells constrain each other iff they share a row, a column,
or a 3×3 box. -/
def SameUnit (r c r2 c2 : Fin 9) : Prop :=
  r = r2 ∨ c = c2 ∨ (r.val / 3 = r2.val / 3 ∧ c.val / 3 = c2.val / 3)

/-- Data-model invariant: every non-zero cell is unique in its row, column
and box. -/
def NoConflicts (b : BoardFun) : Prop :=
  ∀ r c r2 c2 : Fin 9, (r, c) ≠ (r2, c2) → SameUnit r c r2 c2 → b r c ≠ 0 →
    b r c ≠ b r2 c2

/-- `b2` extends `b1`: every filled cell of `b1` is unchanged in `b2`. -/
def Extends (b1 b2 : BoardFun) : Prop := ∀ r c, b1 r c ≠ 0 → b2 r c = b1 r c

/-- `S` is a valid completion of `b`: fully filled, conflict-free, and agrees
with every filled cell of `b`. -/
def Completion (b S : BoardFun) : Prop :=
  (∀ r c, S r c ≠ 0) ∧ NoConflicts S ∧ Extends b S

instance (r c r2 c2 : Fin 9) : Decidable (SameUnit r c r2 c2) := by
  unfold SameUnit; infer_instance

instance (b : BoardFun) : Decidable (NoConflicts b) := by
  unfold NoConflicts; infer_instance

instance (b1 b2 : BoardFun) : Decidable (Extends b1 b2) := by
  unfold Extends; infer_instance

instance (b S : BoardFun) : Decidable (Completion b S) := by
  unfold Completion; infer_instance

instance (g : Game) : Decidable (RemInv g) := by
  unfold RemInv; infer_instance

/-- Build a board from rows of numbers (row-major; entries are taken mod 10,
but all concrete boards below use values 0..9). -/
def mkBoard (l : List (List Nat)) : BoardFun := fun r c =>
  ⟨((l.getD r.val []).getD c.val 0) % 10, Nat.mod_lt _ (by omega)⟩

/-- The indices cleared by the row scan. -/
def rowClears (b : BoardFun) (row : Fin 9) : List Nat :=
  (List.finRange 9).map fun i => (b row i).val

/-- The indices cleared by the column scan. -/
def colClears (b : BoardFun) (col : Fin 9) : List Nat :=
  (List.finRange 9).map fun i => (b i col).val

/-- The indices cleared by the 3×3 section scan. -/
def boxClears (b : BoardFun) (row col : Fin 9) : List Nat :=
  (List.finRange 3).flatMap fun ri =>
    (List.finRange 3).map fun ci => (b (boxStart row ri) (boxStart col ci)).val

/-- Row-major scan position of a cell. -/
def cellKey (x : Fin 9 × Fin 9) : Nat := x.1.val * 9 + x.2.val

section Selection

variable {K : Type} (P : K → Prop) [DecidablePred P] (cnt : K → Nat) (key : K → Nat)

/-- Abstract form of the `NextEmptyCell` loop body: `P` is "the cell is
empty", `cnt` the candidate count, state is (best cell, min count). -/
def selStep (st : K × Nat) (x : K) : K × Nat :=
  if P x then (if cnt x < st.2 then (x, cnt x) else st) else st

/-- What the selection fold guarantees: either the state passed through
unchanged (and no scanned `P`-element beats it), or the result is the first
`P`-element attaining the minimal count. -/
def SelSpec (l : List K) (st res : K × Nat) : Prop :=
  (res = st ∧ ∀ x ∈ l, P x → st.2 ≤ cnt x) ∨
  (P res.1 ∧ res.1 ∈ l ∧ res.2 = cnt res.1 ∧ res.2 < st.2 ∧
    (∀ y ∈ l, P y → res.2 ≤ cnt y) ∧
    (∀ y ∈ l, P y → cnt y = res.2 → key res.1 ≤ key y))

end Selection

/-! ### The solver master specification -/
/-- Everything one call of `recursiveSolver` guarantees on an
invariant-satisfying game: it answers within `numZeros` fuel; a `true`
answer extends the board to a full conflict-free one; a `false` answer
restores board and remaining count exactly and certifies that no valid
completion exists. -/
def SolverSpec (fuel : Nat) (g : Game) : Prop :=
  (recursiveSolver fuel g = none → fuel ≤ numZeros g.board) ∧
  (∀ g1, recursiveSolver fuel g = some (true, g1) →
    Extends g.board g1.board ∧ RemInv g1 ∧ NoConflicts g1.board ∧ g1.remaining = 0) ∧
  (∀ g1, recursiveSolver fuel g = some (false, g1) →
    g1.board = g.board ∧ g1.remaining = g.remaining ∧ ∀ S, ¬ Completion g.board S)

/-! ### Concrete boards used by witnesses and counterexamples -/
/-- A complete valid sudoku grid (rows are cyclic shifts). -/
def cycGrid : List (List Nat) :=
  [[1, 2, 3, 4, 5, 6, 7, 8, 9],
   [4, 5, 6, 7, 8, 9, 1, 2, 3],
   [7, 8, 9, 1, 2, 3, 4, 5, 6],
   [2, 3, 4, 5, 6, 7, 8, 9, 1],
   [5, 6, 7, 8, 9, 1, 2, 3, 4],
   [8, 9, 1, 2, 3, 4, 5, 6, 7],
   [3, 4, 5, 6, 7, 8, 9, 1, 2],
   [6, 7, 8, 9, 1, 2, 3, 4, 5],
   [9, 1, 2, 3, 4, 5, 6, 7, 8]]

/-- `cycGrid` with the top-left cell emptied: a one-hole solvable puzzle. -/
def cycGridHole : List (List Nat) :=
  [[0, 2, 3, 4, 5, 6, 7, 8, 9],
   [4, 5, 6, 7, 8, 9, 1, 2, 3],
   [7, 8, 9, 1, 2, 3, 4, 5, 6],
   [2, 3, 4, 5, 6, 7, 8, 9, 1],
   [5, 6, 7, 8, 9, 1, 2, 3, 4],
   [8, 9, 1, 2, 3, 4, 5, 6, 7],
   [3, 4, 5, 6, 7, 8, 9, 1, 2],
   [6, 7, 8, 9, 1, 2, 3, 4, 5],
   [9, 1, 2, 3, 4, 5, 6, 7, 8]]

/-- The one-hole puzzle as a `Game` satisfying both data-model invariants. -/
def gW1 : Game := { board := mkBoard cycGridHole, remaining := 1, backtracks := 0 }

/-- `cycGrid` with the top-left cell overwritten by 2 (duplicating its row
neighbour): a full board whose cells violate no-conflicts, paired with a
bogus `remaining = 1`, i.e. a `Game` that violates the data-model
invariants. -/
def cycBadRows : List (List Nat) :=
  [[2, 2, 3, 4, 5, 6, 7, 8, 9],
   [4, 5, 6, 7, 8, 9, 1, 2, 3],
   [7, 8, 9, 1, 2, 3, 4, 5, 6],
   [2, 3, 4, 5, 6, 7, 8, 9, 1],
   [5, 6, 7, 8, 9, 1, 2, 3, 4],
   [8, 9, 1, 2, 3, 4, 5, 6, 7],
   [3, 4, 5, 6, 7, 8, 9, 1, 2],
   [6, 7, 8, 9, 1, 2, 3, 4, 5],
   [9, 1, 2, 3, 4, 5, 6, 7, 8]]

/-- Invariant-violating game: full board (`numZeros = 0`) but `remaining = 1`. -/
def gBadC2 : Game := { board := mkBoard cycBadRows, remaining := 1, backtracks := 0 }

/-- A game whose only non-zero cell is 5 at (0,0), with the matching
`remaining = 80`. -/
def gC6 : Game := { board := mkBoard [[5]], remaining := 80, backtracks := 0 }

/-! ### C5: the bounds guard of CellCandidates over raw int coordinates -/
/-- Runtime failures of Go `Game.CellCandidates`: the explicit
`panic("Invalid row/col passed")` guards, and the implicit runtime
index-out-of-range panic of an unchecked slice access. -/
inductive GoPanic : Type
  | invalidRow (row : Int)
  | invalidCol (col : Int)
  | indexOutOfRange
deriving DecidableEq

/-- Checked slice access `g.board[r][c]`: Go panics when an index is outside
[0,9). -/
def boardAt (g : Game) (r c : Int) : Except GoPanic (Fin 10) :=
  if hr : 0 ≤ r ∧ r < 9 then
    if hc : 0 ≤ c ∧ c < 9 then
      .ok (g.board ⟨r.toNat, by omega⟩ ⟨c.toNat, by omega⟩)
    else .error .indexOutOfRange
  else .error .indexOutOfRange

/-- Go `Game.CellCandidates` over arbitrary int coordinates, with its
explicit bounds guard (`row < 0 || DIM < row`, likewise for col) and
checked slice accesses in the three scan loops. -/
def cellCandidates (g : Game) (row col : Int) : Except GoPanic (List Bool) :=
  if row < 0 ∨ 9 < row then .error (.invalidRow row)
  else if col < 0 ∨ 9 < col then .error (.invalidCol col)
  else do
    let cands := initialCandidates
    let cands ← (List.range 9).foldlM (fun cs (i : Nat) => do
      let v ← boardAt g row (i : Int)
      pure (cs.set v.val false)) cands
    let cands ← (List.range 9).foldlM (fun cs (i : Nat) => do
      let v ← boardAt g (i : Int) col
      pure (cs.set v.val false)) cands
    let rowStart := row / 3 * 3
    let colStart := col / 3 * 3
    (List.range 3).foldlM (fun cs (dr : Nat) =>
      (List.range 3).foldlM (fun cs2 (dc : Nat) => do
        let v ← boardAt g (rowStart + (dr : Int)) (colStart + (dc : Int))
        pure (cs2.set v.val false)) cs) cands

/-! ### C8: readGame -/
/-- Parse failures of Go `readGame`: scanner EOF before 9 rows were read
(carrying the 1-based row number of the error message), or the runtime index
panic when a line yields more digits than the row has columns. -/
inductive ParseErr : Type
  | eof (row : Nat)
  | indexPanic
deriving DecidableEq

/-- The `for _, c := range line` loop of Go `readGame`, over the line's rune
code points: a digit rune (ASCII 47 < c < 58) is written as `c - 48` at the
current column, which then advances; writing at column ≥ 9 is the runtime
index panic `board[row][col]` would raise.  (The vacuous `if c > 0` guard of
the source is kept.) -/
def parseLine (row : Fin 9) : List Nat → Nat → Game → Except ParseErr Game
  | [], _, g => .ok g
  | c :: cs, col, g =>
    if 47 < c ∧ c < 58 then
      if hcol : col < 9 then
        parseLine row cs (col + 1)
          (if 0 < c then makeMove g row ⟨col, hcol⟩ ⟨(c - 48) % 10, by omega⟩ else g)
      else .error .indexPanic
    else parseLine row cs col g

/-- The scanner loop of Go `readGame`: read one line per row index. -/
def readRows (lines : List (List Nat)) : List (Fin 9) → Game → Except ParseErr Game
  | [], g => .ok g
  | row :: rows, g =>
    match lines.get? row.val with
    | none => .error (.eof (row.val + 1))
    | some line =>
      match parseLine row line 0 g with
      | .error e => .error e
      | .ok g1 => readRows lines rows g1

/-- Go `readGame` on a list of lines (each line its rune code points). -/
def readGame (lines : List (List Nat)) : Except ParseErr Game :=
  readRows lines (List.finRange 9) newGame

/-- The digit characters of a line, as values 0..9. -/
def digitsOf (l : List Nat) : List Nat :=
  (l.filter fun c => decide (47 < c ∧ c < 58)).map fun c => c - 48

/-- A line of exactly the nine digit characters "123456789". -/
def nineDigitLine : List Nat := [49, 50, 51, 52, 53, 54, 55, 56, 57]

/-- A line of only five digit characters, "12345". -/
def shortLine : List Nat := [49, 50, 51, 52, 53]

/-- Nine lines of which the first yields only five digit characters. -/
def shortLines : List (List Nat) := shortLine :: List.replicate 8 nineDigitLine

/-- Nine lines of which the first yields ten digit characters,
"0123456789". -/
def longLines : List (List Nat) :=
  [48, 49, 50, 51, 52, 53, 54, 55, 56, 57] :: List.replicate 8 nineDigitLine

/-- Nine lines of nine digits each. -/
def nineLines : List (List Nat) := List.replicate 9 nineDigitLine

/-! ### C9: the incremental-counter Board variant (src/unnamed/part_000) -/
/-- Variant struct `Board`: cells plus per-row and per-column empty-cell
counters maintained incrementally. -/
structure Board where
  cell : BoardFun
  rowRemaining : Fin 9 → Int
  colRemaining : Fin 9 → Int
  remaining : Int
  backtracks : Int

/-- Variant `Board.MakeMove`: if the cell is 0 and val ≠ 0 decrement the
global, row and column remaining counters; then store val. -/
def Board.makeMove (b : Board) (row col : Fin 9) (val : Fin 10) : Board :=
  if b.cell row col = 0 ∧ val ≠ 0 then
    { b with
      remaining := b.remaining - 1
      rowRemaining := fun r => if r = row then b.rowRemaining r - 1 else b.rowRemaining r
      colRemaining := fun c => if c = col then b.colRemaining c - 1 else b.colRemaining c
      cell := setCell b.cell row col val }
  else { b with cell := setCell b.cell row col val }

/-- Variant `Board.UnmakeMove`: if the cell is non-zero increment the three
remaining counters and clear the cell; always increment `backtracks`. -/
def Board.unmakeMove (b : Board) (row col : Fin 9) : Board :=
  if b.cell row col ≠ 0 then
    { b with
      remaining := b.remaining + 1
      rowRemaining := fun r => if r = row then b.rowRemaining r + 1 else b.rowRemaining r
      colRemaining := fun c => if c = col then b.colRemaining c + 1 else b.colRemaining c
      cell := setCell b.cell row col 0
      backtracks := b.backtracks + 1 }
  else { b with backtracks := b.backtracks + 1 }

/-- Checked cell access `b.cell[r][c]` of the variant. -/
def boardAtB (b : Board) (r c : Int) : Except GoPanic (Fin 10) :=
  if hr : 0 ≤ r ∧ r < 9 then
    if hc : 0 ≤ c ∧ c < 9 then
      .ok (b.cell ⟨r.toNat, by omega⟩ ⟨c.toNat, by omega⟩)
    else .error .indexOutOfRange
  else .error .indexOutOfRange

/-- Variant `Board.NextEmptyCell`: pick the row with the smallest positive
`rowRemaining` (named returns start at -1, minima at DIM+1 = 10), then the
empty column in that row with the smallest positive `colRemaining`; the Go
access `b.cell[row][i]` panics when no row was found (row stays -1). -/
def nextEmptyCellB (b : Board) : Except GoPanic (Int × Int) :=
  let rowSel := (List.finRange 9).foldl
    (fun st (i : Fin 9) =>
      if 0 < b.rowRemaining i ∧ b.rowRemaining i < st.2
      then ((i.val : Int), b.rowRemaining i) else st)
    (-1, 10)
  let row := rowSel.1
  do
    let colSel ← (List.finRange 9).foldlM
      (fun (st : Int × Int) (i : Fin 9) => do
        let v ← boardAtB b row (i.val : Int)
        pure (if v = 0 ∧ 0 < b.colRemaining i ∧ b.colRemaining i < st.2
              then ((i.val : Int), b.colRemaining i) else st))
      (-1, 10)
    pure (row, colSel.1)

/-- Variant `Board.CellCandidates`: identical to the Game version, over the
variant's cells. -/
def cellCandidatesB (b : Board) (row col : Int) : Except GoPanic (List Bool) :=
  if row < 0 ∨ 9 < row then .error (.invalidRow row)
  else if col < 0 ∨ 9 < col then .error (.invalidCol col)
  else do
    let cands := initialCandidates
    let cands ← (List.range 9).foldlM (fun cs (i : Nat) => do
      let v ← boardAtB b row (i : Int)
      pure (cs.set v.val false)) cands
    let cands ← (List.range 9).foldlM (fun cs (i : Nat) => do
      let v ← boardAtB b (i : Int) col
      pure (cs.set v.val false)) cands
    let rowStart := row / 3 * 3
    let colStart := col / 3 * 3
    (List.range 3).foldlM (fun cs (dr : Nat) =>
      (List.range 3).foldlM (fun cs2 (dc : Nat) => do
        let v ← boardAtB b (rowStart + (dr : Int)) (colStart + (dc : Int))
        pure (cs2.set v.val false)) cs) cands

/-- The candidate loop of the variant `recursiveSolver`; results are
`none` = out of fuel, `some (.error p)` = runtime panic,
`some (.ok (solved, b))` = normal return. -/
def tryCandidatesB (solve : Board → Option (Except GoPanic (Bool × Board)))
    (row col : Fin 9) (cands : List Bool) :
    Board → List (Fin 10) → Option (Except GoPanic (Bool × Board))
  | b, [] => some (.ok (false, b))
  | b, val :: vals =>
    if cands.getD val.val false then
      match solve (b.makeMove row col val) with
      | none => none
      | some (.error p) => some (.error p)
      | some (.ok (true, b1)) => some (.ok (true, b1))
      | some (.ok (false, b1)) =>
        tryCandidatesB solve row col cands (b1.unmakeMove row col) vals
    else tryCandidatesB solve row col cands b vals

/-- Variant `recursiveSolver` with fuel.  The bounds check before the loop is
dead code: `cellCandidatesB` only returns `.ok` for in-range coordinates,
and it marks the same slice panic `Board.MakeMove` would otherwise raise. -/
def recursiveSolverB : Nat → Board → Option (Except GoPanic (Bool × Board))
  | 0, _ => none
  | fuel + 1, b =>
    if b.remaining = 0 then some (.ok (true, b))
    else
      match nextEmptyCellB b with
      | .error p => some (.error p)
      | .ok (row, col) =>
        match cellCandidatesB b row col with
        | .error p => some (.error p)
        | .ok cands =>
          if h : 0 ≤ row ∧ row < 9 ∧ 0 ≤ col ∧ col < 9 then
            tryCandidatesB (recursiveSolverB fuel) ⟨row.toNat, by omega⟩
              ⟨col.toNat, by omega⟩ cands b (List.finRange 10)
          else some (.error .indexOutOfRange)

/-- Number of empty cells in one row. -/
def rowZeros (bd : BoardFun) (r : Fin 9) : Nat :=
  (Finset.univ.filter fun c : Fin 9 => bd r c = 0).card

/-- Number of empty cells in one column. -/
def colZeros (bd : BoardFun) (c : Fin 9) : Nat :=
  (Finset.univ.filter fun r : Fin 9 => bd r c = 0).card

/-- Data-model invariants of the variant: all three remaining counters
match the actual zero counts. -/
def InvB (b : Board) : Prop :=
  b.remaining = (numZeros b.cell : Int) ∧
  (∀ r, b.rowRemaining r = (rowZeros b.cell r : Int)) ∧
  (∀ c, b.colRemaining c = (colZeros b.cell c : Int))

instance (b : Board) : Decidable (InvB b) := by
  unfold InvB; infer_instance

/-- Build per-row/per-column counters from a list. -/
def mkCounts (l : List Int) : Fin 9 → Int := fun i => l.getD i.val 0

section SelectionB

variable (P : Fin 9 → Prop) [DecidablePred P] (cnt : Fin 9 → Int)

/-! ### Selection lemmas for the counter-based `NextEmptyCell` -/
/-- Abstract body of the variant selection loops: state is
(best index or -1, best counter or 10). -/
def selStepB (st : Int × Int) (i : Fin 9) : Int × Int :=
  if P i ∧ cnt i < st.2 then ((i.val : Int), cnt i) else st

end SelectionB

/-- Everything one call of the variant `recursiveSolver` guarantees on an
invariant-satisfying board: it answers within `numZeros` fuel; it never
raises a runtime panic; a `true` answer extends the board to a full
conflict-free one; a `false` answer restores the cells and all three
remaining counters exactly and certifies that no valid completion exists. -/
def SolverSpecB (fuel : Nat) (b : Board) : Prop :=
  (recursiveSolverB fuel b = none → fuel ≤ numZeros b.cell) ∧
  (∀ p, recursiveSolverB fuel b = some (.error p) → False) ∧
  (∀ b1, recursiveSolverB fuel b = some (.ok (true, b1)) →
    Extends b.cell b1.cell ∧ InvB b1 ∧ NoConflicts b1.cell ∧ b1.remaining = 0) ∧
  (∀ b1, recursiveSolverB fuel b = some (.ok (false, b1)) →
    b1.cell = b.cell ∧ b1.remaining = b.remaining ∧
    b1.rowRemaining = b.rowRemaining ∧ b1.colRemaining = b.colRemaining ∧
    ∀ S, ¬ Completion b.cell S)

/-- A puzzle with ten empty cells and two distinct valid completions: the
four cells (0,6), (0,8), (5,6), (5,8) can hold 4/7 in either diagonal
arrangement. -/
def p9 : List (List Nat) :=
  [[8,9,3,0,6,2,0,5,0],
   [7,2,4,0,8,0,1,6,3],
   [6,1,5,7,3,4,9,8,2],
   [4,5,2,6,7,1,8,3,9],
   [9,7,8,0,4,3,0,1,5],
   [1,3,6,9,5,8,0,2,0],
   [0,8,1,3,9,7,2,4,6],
   [3,4,7,8,2,6,5,9,1],
   [2,6,9,4,1,5,3,7,8]]

/-- The `Game` (full-board-scan MRV) start position for `p9`. -/
def g9 : Game := { board := mkBoard p9, remaining := 10, backtracks := 0 }

/-- The variant `Board` start position for `p9`, with its per-row and
per-column remaining counters. -/
def b9 : Board :=
  { cell := mkBoard p9
    rowRemaining := mkCounts [3,2,0,0,2,2,1,0,0]
    colRemaining := mkCounts [1,0,0,3,0,1,3,0,2]
    remaining := 10
    backtracks := 0 }

/-- The variant `Board` position matching `gW1` (the cyclic grid with one
hole at (0,0)). -/
def bW1 : Board :=
  { cell := mkBoard cycGridHole
    rowRemaining := mkCounts [1,0,0,0,0,0,0,0,0]
    colRemaining := mkCounts [1,0,0,0,0,0,0,0,0]
    remaining := 1
    backtracks := 0 }

/-! ### Characterisation of the candidate computation -/
lemma getD_set_false (cs : List Bool) (i v : Nat) :
    (cs.set i false).getD v false = if i = v then false else cs.getD v false := by
  by_cases hiv : i = v
  · subst hiv
    by_cases hlen : i < cs.length
    · simp [List.getD_eq_getElem?_getD, List.getElem?_set_self, hlen]
    · simp [List.getD_eq_getElem?_getD, List.getElem?_eq_none (le_of_not_lt hlen),
        List.set_eq_of_length_le (le_of_not_lt hlen)]
  · simp [hiv, List.getD_eq_getElem?_getD, List.getElem?_set_ne hiv]

lemma getD_foldl_set_false :
    ∀ (l : List Nat) (cs : List Bool) (v : Nat),
      (l.foldl (fun acc i => acc.set i false) cs).getD v false =
        (!(l.contains v) && cs.getD v false)
  | [], cs, v => by simp
  | i :: l, cs, v => by
    rw [List.foldl_cons, getD_foldl_set_false l (cs.set i false) v, getD_set_false]
    by_cases hvi : v = i
    · simp [hvi, List.contains_cons]
    · simp [List.contains_cons, hvi, Ne.symm hvi]

lemma length_foldl_set :
    ∀ (l : List Nat) (cs : List Bool),
      (l.foldl (fun acc i => acc.set i false) cs).length = cs.length
  | [], _ => rfl
  | i :: l, cs => by
    rw [List.foldl_cons, length_foldl_set l (cs.set i false), List.length_set]

lemma foldl_flatMap_set {α : Type} (F : α → List Nat) :
    ∀ (l : List α) (cs : List Bool),
      (l.flatMap F).foldl (fun acc i => acc.set i false) cs =
        l.foldl (fun acc x => (F x).foldl (fun a i => a.set i false) acc) cs
  | [], _ => rfl
  | x :: l, cs => by
    rw [List.flatMap_cons, List.foldl_append, List.foldl_cons, foldl_flatMap_set F l]

lemma foldl_funext {α β : Type} (f g : β → α → β) (h : ∀ x a, f x a = g x a) :
    ∀ (l : List α) (init : β), l.foldl f init = l.foldl g init
  | [], _ => rfl
  | a :: l, init => by rw [List.foldl_cons, List.foldl_cons, h, foldl_funext f g h l]

lemma cellCandidatesCore_eq_clears (b : BoardFun) (row col : Fin 9) :
    cellCandidatesCore b row col =
      (boxClears b row col).foldl (fun acc i => acc.set i false)
        ((colClears b col).foldl (fun acc i => acc.set i false)
          ((rowClears b row).foldl (fun acc i => acc.set i false) initialCandidates)) := by
  rw [cellCandidatesCore, rowClears, colClears, boxClears, foldl_flatMap_set,
    List.foldl_map, List.foldl_map]
  refine foldl_funext _ _ (fun cs ri => ?_) _ _
  exact (List.foldl_map (fun ci => (b (boxStart row ri) (boxStart col ci)).val)
    (fun a i => a.set i false) (List.finRange 3) cs).symm

lemma cellCandidatesCore_getD (b : BoardFun) (row col : Fin 9) (v : Nat) :
    (cellCandidatesCore b row col).getD v false =
      (!((boxClears b row col).contains v) && (!((colClears b col).contains v) &&
        (!((rowClears b row).contains v) && initialCandidates.getD v false))) := by
  rw [cellCandidatesCore_eq_clears, getD_foldl_set_false, getD_foldl_set_false,
    getD_foldl_set_false]

lemma cellCandidatesCore_length (b : BoardFun) (row col : Fin 9) :
    (cellCandidatesCore b row col).length = 10 := by
  rw [cellCandidatesCore_eq_clears, length_foldl_set, length_foldl_set, length_foldl_set]
  rfl

lemma initialCandidates_getD :
    ∀ v : Nat, initialCandidates.getD v false = (decide (1 ≤ v) && decide (v ≤ 9))
  | 0 => rfl | 1 => rfl | 2 => rfl | 3 => rfl | 4 => rfl
  | 5 => rfl | 6 => rfl | 7 => rfl | 8 => rfl | 9 => rfl
  | n + 10 => by
    have h9 : ¬(n + 10 ≤ 9) := by omega
    simp [initialCandidates, List.getD, h9]

lemma contains_iff_mem {l : List Nat} {v : Nat} : l.contains v = true ↔ v ∈ l := by
  induction l with
  | nil => simp
  | cons x xs ih => rw [List.contains_cons]; simp [ih]

lemma rowClears_contains (b : BoardFun) (row : Fin 9) (v : Nat) :
    (rowClears b row).contains v = true ↔ ∃ i : Fin 9, (b row i).val = v := by
  rw [contains_iff_mem]; simp [rowClears]

lemma colClears_contains (b : BoardFun) (col : Fin 9) (v : Nat) :
    (colClears b col).contains v = true ↔ ∃ i : Fin 9, (b i col).val = v := by
  rw [contains_iff_mem]; simp [colClears]

lemma boxStart_val (r : Fin 9) (d : Fin 3) :
    (boxStart r d).val = r.val / 3 * 3 + d.val := rfl

lemma boxStart_div (r : Fin 9) (d : Fin 3) : (boxStart r d).val / 3 = r.val / 3 := by
  rw [boxStart_val]; have := d.isLt; omega

lemma boxStart_surj (r i : Fin 9) (h : i.val / 3 = r.val / 3) :
    ∃ d : Fin 3, boxStart r d = i := by
  refine ⟨⟨i.val % 3, Nat.mod_lt _ (by omega)⟩, Fin.ext ?_⟩
  show r.val / 3 * 3 + i.val % 3 = i.val
  have := i.isLt
  omega

lemma boxClears_contains (b : BoardFun) (row col : Fin 9) (v : Nat) :
    (boxClears b row col).contains v = true ↔
      ∃ i j : Fin 9, i.val / 3 = row.val / 3 ∧ j.val / 3 = col.val / 3 ∧ (b i j).val = v := by
  rw [contains_iff_mem]
  constructor
  · intro hv
    rw [boxClears] at hv
    obtain ⟨ri, _, hv⟩ := List.mem_flatMap.mp hv
    obtain ⟨ci, _, hv⟩ := List.mem_map.mp hv
    exact ⟨boxStart row ri, boxStart col ci, boxStart_div row ri, boxStart_div col ci, hv⟩
  · rintro ⟨i, j, hi, hj, hb⟩
    obtain ⟨ri, hri⟩ := boxStart_surj row i hi
    obtain ⟨ci, hci⟩ := boxStart_surj col j hj
    rw [boxClears]
    refine List.mem_flatMap.mpr ⟨ri, List.mem_finRange ri, List.mem_map.mpr
      ⟨ci, List.mem_finRange ci, ?_⟩⟩
    rw [hri, hci, hb]

/-- Main characterisation of the candidate computation: for a non-zero value
`v`, the flag at index `v` is true iff `v` is absent from the cell's row,
column, and 3×3 box. -/
lemma cellCandidatesCore_true_iff (b : BoardFun) (row col : Fin 9) (v : Fin 10)
    (hv : v ≠ 0) :
    ((cellCandidatesCore b row col).getD v.val false = true ↔
      (∀ i : Fin 9, b row i ≠ v) ∧ (∀ i : Fin 9, b i col ≠ v) ∧
      (∀ i j : Fin 9, i.val / 3 = row.val / 3 → j.val / 3 = col.val / 3 → b i j ≠ v)) := by
  have hv1 : 1 ≤ v.val := Nat.one_le_iff_ne_zero.mpr fun h => hv (Fin.ext h)
  have hv9 : v.val ≤ 9 := by have := v.isLt; omega
  rw [cellCandidatesCore_getD, initialCandidates_getD, decide_eq_true hv1,
    decide_eq_true hv9]
  simp only [Bool.and_true, Bool.and_eq_true, Bool.not_eq_true']
  rw [Bool.eq_false_iff, Bool.eq_false_iff, Bool.eq_false_iff]
  simp only [ne_eq, rowClears_contains, colClears_contains, boxClears_contains,
    not_exists]
  constructor
  · rintro ⟨hbox, hcol, hrow⟩
    refine ⟨fun i h => hrow i (by rw [h]), fun i h => hcol i (by rw [h]),
      fun i j hi hj h => hbox i j ⟨hi, hj, by rw [h]⟩⟩
  · rintro ⟨hrow, hcol, hbox⟩
    refine ⟨fun i j h => hbox i j h.1 h.2.1 (Fin.ext h.2.2),
      fun i h => hcol i (Fin.ext h), fun i h => hrow i (Fin.ext h)⟩

/-- Every true index of the candidate list is a value 1..9. -/
lemma cellCandidatesCore_true_bounds (b : BoardFun) (row col : Fin 9) (v : Nat)
    (h : (cellCandidatesCore b row col).getD v false = true) : 1 ≤ v ∧ v ≤ 9 := by
  rw [cellCandidatesCore_getD, initialCandidates_getD] at h
  simp only [Bool.and_eq_true, decide_eq_true_eq] at h
  exact h.2.2.2

/-- Index 0 of the candidate list is always false. -/
lemma cellCandidatesCore_zero (b : BoardFun) (row col : Fin 9) :
    (cellCandidatesCore b row col).getD 0 false = false := by
  rw [cellCandidatesCore_getD, initialCandidates_getD]
  simp

/-! ### The cell-selection heuristic -/
lemma foldl_cond_succ_le {α : Type} (f : α → Bool) :
    ∀ (l : List α) (n : Nat),
      l.foldl (fun cur i => if f i then cur + 1 else cur) n ≤ n + l.length
  | [], n => Nat.le_refl n
  | a :: l, n => by
    rw [List.foldl_cons]
    by_cases hf : f a
    · simp only [hf, if_true]
      exact (foldl_cond_succ_le f l (n + 1)).trans
        (by simp only [List.length_cons]; omega)
    · simp only [hf, if_false]
      exact (foldl_cond_succ_le f l n).trans
        (by simp only [List.length_cons]; omega)

lemma countCandidates_le (cands : List Bool) : countCandidates cands ≤ 9 :=
  (foldl_cond_succ_le _ (List.range' 1 9) 0).trans (by simp)

section Selection

variable {K : Type} (P : K → Prop) [DecidablePred P] (cnt : K → Nat) (key : K → Nat)

lemma selStep_fold_spec :
    ∀ (l : List K) (st : K × Nat),
      l.Pairwise (fun u w => key u < key w) →
      SelSpec P cnt key l st (l.foldl (selStep P cnt) st) := by
  intro l
  induction l with
  | nil => exact fun st _ => Or.inl ⟨rfl, by simp⟩
  | cons a l ih =>
    intro st hp
    have hkey : ∀ y ∈ l, key a < key y := (List.pairwise_cons.mp hp).1
    have hp' : l.Pairwise fun u w => key u < key w :=
      (List.pairwise_cons.mp hp).2
    rw [List.foldl_cons]
    by_cases ha : P a
    · by_cases hlt : cnt a < st.2
      · have hstep : selStep P cnt st a = (a, cnt a) := by
          simp [selStep, ha, hlt]
        rw [hstep]
        rcases ih (a, cnt a) hp' with ⟨hres, hmin⟩ | hB
        · right
          rw [hres]
          refine ⟨ha, List.mem_cons_self a l, rfl, hlt, ?_, ?_⟩
          · intro y hy hye
            rcases List.mem_cons.mp hy with rfl | hy
            · exact Nat.le_refl _
            · exact hmin y hy hye
          · intro y hy _ _
            rcases List.mem_cons.mp hy with rfl | hy
            · exact Nat.le_refl _
            · exact Nat.le_of_lt (hkey y hy)
        · obtain ⟨h1, h2, h3, h4, h5, h6⟩ := hB
          right
          refine ⟨h1, List.mem_cons_of_mem a h2, h3, h4.trans hlt, ?_, ?_⟩
          · intro y hy hye
            rcases List.mem_cons.mp hy with rfl | hy
            · exact Nat.le_of_lt h4
            · exact h5 y hy hye
          · intro y hy hye hc
            rcases List.mem_cons.mp hy with rfl | hy
            · exact absurd hc (by omega)
            · exact h6 y hy hye hc
      · have hstep : selStep P cnt st a = st := by
          simp [selStep, ha, hlt]
        rw [hstep]
        rcases ih st hp' with ⟨hres, hmin⟩ | hB
        · left
          refine ⟨hres, fun y hy hye => ?_⟩
          rcases List.mem_cons.mp hy with rfl | hy
          · omega
          · exact hmin y hy hye
        · obtain ⟨h1, h2, h3, h4, h5, h6⟩ := hB
          right
          refine ⟨h1, List.mem_cons_of_mem a h2, h3, h4, ?_, ?_⟩
          · intro y hy hye
            rcases List.mem_cons.mp hy with rfl | hy
            · omega
            · exact h5 y hy hye
          · intro y hy hye hc
            rcases List.mem_cons.mp hy with rfl | hy
            · omega
            · exact h6 y hy hye hc
    · have hstep : selStep P cnt st a = st := by simp [selStep, ha]
      rw [hstep]
      rcases ih st hp' with ⟨hres, hmin⟩ | hB
      · left
        refine ⟨hres, fun y hy hye => ?_⟩
        rcases List.mem_cons.mp hy with rfl | hy
        · exact absurd hye ha
        · exact hmin y hy hye
      · obtain ⟨h1, h2, h3, h4, h5, h6⟩ := hB
        right
        refine ⟨h1, List.mem_cons_of_mem a h2, h3, h4, ?_, ?_⟩
        · intro y hy hye
          rcases List.mem_cons.mp hy with rfl | hy
          · exact absurd hye ha
          · exact h5 y hy hye
        · intro y hy hye hc
          rcases List.mem_cons.mp hy with rfl | hy
          · exact absurd hye ha
          · exact h6 y hy hye hc

end Selection

lemma nextStep_eq_selStep (b : BoardFun) :
    nextStep b = selStep (fun rc : Fin 9 × Fin 9 => b rc.1 rc.2 = 0)
      (fun rc => candCount b rc.1 rc.2) := rfl

lemma allCells_pairwise : allCells.Pairwise fun u w => cellKey u < cellKey w := by
  rw [allCells, List.pairwise_flatMap]
  constructor
  · intro r _
    rw [List.pairwise_map]
    refine (List.pairwise_lt_finRange 9).imp fun hab => ?_
    simpa [cellKey] using hab
  · refine (List.pairwise_lt_finRange 9).imp fun hab x hx y hy => ?_
    obtain ⟨cx, _, rfl⟩ := List.mem_map.mp hx
    obtain ⟨cy, _, rfl⟩ := List.mem_map.mp hy
    have := cx.isLt
    have := cy.isLt
    simp only [cellKey]
    omega

lemma mem_allCells (x : Fin 9 × Fin 9) : x ∈ allCells := by
  rcases x with ⟨r, c⟩
  exact List.mem_flatMap.mpr ⟨r, List.mem_finRange r,
    List.mem_map.mpr ⟨c, List.mem_finRange c, rfl⟩⟩

/-- `NextEmptyCell` on a board with at least one empty cell: the result is an
empty cell of minimal candidate count, and the first such cell in row-major
order. -/
lemma nextEmptyCell_spec (g : Game) (h : ∃ rc : Fin 9 × Fin 9, g.board rc.1 rc.2 = 0) :
    g.board (nextEmptyCell g).1 (nextEmptyCell g).2 = 0 ∧
    (∀ r c : Fin 9, g.board r c = 0 →
      candCount g.board (nextEmptyCell g).1 (nextEmptyCell g).2 ≤ candCount g.board r c) ∧
    (∀ r c : Fin 9, g.board r c = 0 →
      candCount g.board r c = candCount g.board (nextEmptyCell g).1 (nextEmptyCell g).2 →
      cellKey (nextEmptyCell g) ≤ cellKey (r, c)) := by
  obtain ⟨rc0, hrc0⟩ := h
  unfold nextEmptyCell
  rw [nextStep_eq_selStep]
  have hspec := selStep_fold_spec (fun rc : Fin 9 × Fin 9 => g.board rc.1 rc.2 = 0)
    (fun rc => candCount g.board rc.1 rc.2) cellKey allCells ((0, 0), 10) allCells_pairwise
  rcases hspec with ⟨_, hmin⟩ | ⟨h1, _, h3, _, h5, h6⟩
  · have h10 := hmin rc0 (mem_allCells rc0) hrc0
    have h9 := countCandidates_le (cellCandidatesCore g.board rc0.1 rc0.2)
    have h10a : 10 ≤ candCount g.board rc0.1 rc0.2 := h10
    unfold candCount at h10a
    omega
  · refine ⟨h1, ?_, ?_⟩
    · intro r c hrc
      exact Nat.le_trans (Nat.le_of_eq h3.symm) (h5 (r, c) (mem_allCells (r, c)) hrc)
    · intro r c hrc hcnt
      exact h6 (r, c) (mem_allCells (r, c)) hrc (hcnt.trans h3.symm)

/-! ### Board and invariant lemmas -/
lemma setCell_same (b : BoardFun) (row col : Fin 9) (v : Fin 10) :
    setCell b row col v row col = v := by simp [setCell]

lemma setCell_other (b : BoardFun) (row col : Fin 9) (v : Fin 10) (r c : Fin 9)
    (h : ¬(r = row ∧ c = col)) : setCell b row col v r c = b r c := by
  simp [setCell, h]

lemma setCell_cancel (b : BoardFun) (row col : Fin 9) (v : Fin 10)
    (h0 : b row col = 0) : setCell (setCell b row col v) row col 0 = b := by
  funext r c
  by_cases h : r = row ∧ c = col
  · obtain ⟨rfl, rfl⟩ := h
    rw [setCell_same, h0]
  · rw [setCell_other _ _ _ _ _ _ h, setCell_other _ _ _ _ _ _ h]

lemma extends_refl (b : BoardFun) : Extends b b := fun _ _ _ => rfl

lemma extends_trans {b1 b2 b3 : BoardFun} (h12 : Extends b1 b2) (h23 : Extends b2 b3) :
    Extends b1 b3 := fun r c h => by rw [h23 r c (by rw [h12 r c h]; exact h), h12 r c h]

lemma extends_setCell (b : BoardFun) (row col : Fin 9) (v : Fin 10)
    (h0 : b row col = 0) : Extends b (setCell b row col v) := by
  intro r c h
  have hne : ¬(r = row ∧ c = col) := by
    rintro ⟨rfl, rfl⟩
    exact h h0
  exact setCell_other _ _ _ _ _ _ hne

lemma numZeros_setCell_fill (b : BoardFun) (row col : Fin 9) (v : Fin 10)
    (h0 : b row col = 0) (hv : v ≠ 0) :
    numZeros (setCell b row col v) + 1 = numZeros b := by
  unfold numZeros
  have hset : (Finset.univ.filter fun rc : Fin 9 × Fin 9 => setCell b row col v rc.1 rc.2 = 0)
      = (Finset.univ.filter fun rc : Fin 9 × Fin 9 => b rc.1 rc.2 = 0).erase (row, col) := by
    ext ⟨r, c⟩
    simp only [Finset.mem_filter, Finset.mem_erase, Finset.mem_univ, true_and]
    by_cases h : r = row ∧ c = col
    · obtain ⟨rfl, rfl⟩ := h
      simp [setCell_same, hv]
    · rw [setCell_other _ _ _ _ _ _ h]
      have : (r, c) ≠ (row, col) := by
        intro hrc
        exact h ⟨congrArg Prod.fst hrc, congrArg Prod.snd hrc⟩
      simp [this]
  rw [hset]
  have hmem : (row, col) ∈ Finset.univ.filter fun rc : Fin 9 × Fin 9 => b rc.1 rc.2 = 0 := by
    simp [h0]
  rw [Finset.card_erase_of_mem hmem]
  have := Finset.card_pos.mpr ⟨(row, col), hmem⟩
  omega

lemma exists_empty_of_numZeros_ne_zero (b : BoardFun) (h : numZeros b ≠ 0) :
    ∃ rc : Fin 9 × Fin 9, b rc.1 rc.2 = 0 := by
  by_contra hn
  push_neg at hn
  refine h ?_
  unfold numZeros
  rw [Finset.card_eq_zero, Finset.filter_eq_empty_iff]
  exact fun rc _ => hn rc

lemma full_of_numZeros_eq_zero (b : BoardFun) (h : numZeros b = 0) :
    ∀ r c : Fin 9, b r c ≠ 0 := by
  intro r c hrc
  rw [numZeros, Finset.card_eq_zero, Finset.filter_eq_empty_iff] at h
  exact h (Finset.mem_univ (r, c)) hrc

/-- Placing a currently-legal candidate keeps the board conflict-free. -/
lemma noConflicts_setCell (b : BoardFun) (row col : Fin 9) (v : Fin 10)
    (hnc : NoConflicts b) (h0 : b row col = 0) (hv : v ≠ 0)
    (hcand : (cellCandidatesCore b row col).getD v.val false = true) :
    NoConflicts (setCell b row col v) := by
  obtain ⟨hrow, hcol, hbox⟩ := (cellCandidatesCore_true_iff b row col v hv).mp hcand
  have habs : ∀ r2 c2 : Fin 9, SameUnit row col r2 c2 → ¬(r2 = row ∧ c2 = col) →
      b r2 c2 ≠ v := by
    intro r2 c2 hsu _
    rcases hsu with rfl | rfl | ⟨hr, hc⟩
    · exact fun h => hrow c2 h
    · exact fun h => hcol r2 h
    · exact fun h => hbox r2 c2 hr.symm hc.symm h
  intro r c r2 c2 hne hsu hnz heq
  by_cases h1 : r = row ∧ c = col
  · obtain ⟨h1r, h1c⟩ := h1
    subst h1r
    subst h1c
    have h2 : ¬(r2 = r ∧ c2 = c) := by
      rintro ⟨rfl, rfl⟩
      exact hne rfl
    rw [setCell_same] at heq
    rw [setCell_other _ _ _ _ _ _ h2] at heq
    exact habs r2 c2 hsu h2 heq.symm
  · rw [setCell_other _ _ _ _ _ _ h1] at hnz heq
    by_cases h2 : r2 = row ∧ c2 = col
    · obtain ⟨h2r, h2c⟩ := h2
      subst h2r
      subst h2c
      rw [setCell_same] at heq
      have hsu2 : SameUnit r2 c2 r c := by
        rcases hsu with rfl | rfl | ⟨hr, hc⟩
        · exact Or.inl rfl
        · exact Or.inr (Or.inl rfl)
        · exact Or.inr (Or.inr ⟨hr.symm, hc.symm⟩)
      exact habs r c hsu2 h1 heq
    · rw [setCell_other _ _ _ _ _ _ h2] at heq
      exact hnc r c r2 c2 hne hsu hnz heq

lemma completion_nonzero {b S : BoardFun} (hS : Completion b S) (r c : Fin 9) :
    S r c ≠ 0 := hS.1 r c

/-- The value a completion assigns to an empty cell is always a legal
candidate of the current board. -/
lemma completion_value_candidate {b S : BoardFun} (hS : Completion b S)
    (row col : Fin 9) (h0 : b row col = 0) :
    (cellCandidatesCore b row col).getD (S row col).val false = true := by
  obtain ⟨hfull, hncS, hext⟩ := hS
  refine (cellCandidatesCore_true_iff b row col (S row col) (hfull row col)).mpr
    ⟨?_, ?_, ?_⟩
  · intro i hi
    by_cases hic : i = col
    · rw [hic, h0] at hi
      exact hfull row col hi.symm
    · have hbnz : b row i ≠ 0 := by rw [hi]; exact hfull row col
      have hSi : S row i = S row col := by rw [hext row i hbnz]; exact hi
      exact hncS row i row col (by simp [hic]) (Or.inl rfl)
        (by rw [hSi]; exact hfull row col) hSi
  · intro i hi
    by_cases hir : i = row
    · rw [hir, h0] at hi
      exact hfull row col hi.symm
    · have hbnz : b i col ≠ 0 := by rw [hi]; exact hfull row col
      have hSi : S i col = S row col := by rw [hext i col hbnz]; exact hi
      exact hncS i col row col (by simp [hir]) (Or.inr (Or.inl rfl))
        (by rw [hSi]; exact hfull row col) hSi
  · intro i j hdi hdj hij
    by_cases hp : i = row ∧ j = col
    · rw [hp.1, hp.2, h0] at hij
      exact hfull row col hij.symm
    · have hbnz : b i j ≠ 0 := by rw [hij]; exact hfull row col
      have hSij : S i j = S row col := by rw [hext i j hbnz]; exact hij
      have hne : (i, j) ≠ (row, col) := by
        intro hpe
        exact hp ⟨congrArg Prod.fst hpe, congrArg Prod.snd hpe⟩
      exact hncS i j row col hne (Or.inr (Or.inr ⟨hdi, hdj⟩))
        (by rw [hSij]; exact hfull row col) hSij

/-- On a full conflict-free board, every row contains each value 1..9
exactly once. -/
lemma full_row_perm (b : BoardFun) (hfull : ∀ r c : Fin 9, b r c ≠ 0)
    (hnc : NoConflicts b) (r : Fin 9) (v : Fin 10) (hv : v ≠ 0) :
    ∃! c : Fin 9, b r c = v := by
  have hinj : Function.Injective fun c => b r c := by
    intro c c' h
    by_contra hne
    exact hnc r c r c' (by simp [hne]) (Or.inl rfl) (hfull r c) h
  have himg : Finset.image (fun c => b r c) Finset.univ =
      Finset.univ.filter fun w : Fin 10 => w ≠ 0 := by
    apply Finset.eq_of_subset_of_card_le
    · intro w hw
      obtain ⟨c, _, rfl⟩ := Finset.mem_image.mp hw
      simp [hfull r c]
    · rw [Finset.card_image_of_injective _ hinj]
      decide
  have hvmem : v ∈ Finset.image (fun c => b r c) Finset.univ := by
    rw [himg]
    simp [hv]
  obtain ⟨c, _, hc⟩ := Finset.mem_image.mp hvmem
  exact ⟨c, hc, fun c' hc' => hinj (hc'.trans hc.symm)⟩

/-- On a full conflict-free board, every column contains each value 1..9
exactly once. -/
lemma full_col_perm (b : BoardFun) (hfull : ∀ r c : Fin 9, b r c ≠ 0)
    (hnc : NoConflicts b) (c : Fin 9) (v : Fin 10) (hv : v ≠ 0) :
    ∃! r : Fin 9, b r c = v := by
  have hinj : Function.Injective fun r => b r c := by
    intro r r' h
    by_contra hne
    exact hnc r c r' c (by simp [hne]) (Or.inr (Or.inl rfl)) (hfull r c) h
  have himg : Finset.image (fun r => b r c) Finset.univ =
      Finset.univ.filter fun w : Fin 10 => w ≠ 0 := by
    apply Finset.eq_of_subset_of_card_le
    · intro w hw
      obtain ⟨r, _, rfl⟩ := Finset.mem_image.mp hw
      simp [hfull r c]
    · rw [Finset.card_image_of_injective _ hinj]
      decide
  have hvmem : v ∈ Finset.image (fun r => b r c) Finset.univ := by
    rw [himg]
    simp [hv]
  obtain ⟨r, _, hr⟩ := Finset.mem_image.mp hvmem
  exact ⟨r, hr, fun r' hr' => hinj (hr'.trans hr.symm)⟩

/-- On a full conflict-free board, every 3×3 box contains each value 1..9
exactly once; the box is named by its top-left corner coordinates divided
by three. -/
lemma full_box_perm (b : BoardFun) (hfull : ∀ r c : Fin 9, b r c ≠ 0)
    (hnc : NoConflicts b) (br bc : Fin 3) (v : Fin 10) (hv : v ≠ 0) :
    ∃! p : Fin 3 × Fin 3,
      b ⟨br.val * 3 + p.1.val, by omega⟩ ⟨bc.val * 3 + p.2.val, by omega⟩ = v := by
  have hinj : Function.Injective fun p : Fin 3 × Fin 3 =>
      b ⟨br.val * 3 + p.1.val, by omega⟩ ⟨bc.val * 3 + p.2.val, by omega⟩ := by
    intro p p' h
    by_contra hne
    have hcell : (⟨br.val * 3 + p.1.val, by omega⟩ : Fin 9) ≠ ⟨br.val * 3 + p'.1.val, by omega⟩ ∨
        (⟨bc.val * 3 + p.2.val, by omega⟩ : Fin 9) ≠ ⟨bc.val * 3 + p'.2.val, by omega⟩ := by
      by_contra hc
      push_neg at hc
      obtain ⟨h1, h2⟩ := hc
      refine hne (Prod.ext ?_ ?_)
      · have := congrArg Fin.val h1
        simp only at this
        exact Fin.ext (by omega)
      · have := congrArg Fin.val h2
        simp only at this
        exact Fin.ext (by omega)
    refine hnc _ _ _ _ ?_ ?_ (hfull _ _) h
    · intro hp
      rcases hcell with hc1 | hc2
      · exact hc1 (congrArg Prod.fst hp)
      · exact hc2 (congrArg Prod.snd hp)
    · refine Or.inr (Or.inr ⟨?_, ?_⟩)
      · show (br.val * 3 + p.1.val) / 3 = (br.val * 3 + p'.1.val) / 3
        have := p.1.isLt
        have := p'.1.isLt
        omega
      · show (bc.val * 3 + p.2.val) / 3 = (bc.val * 3 + p'.2.val) / 3
        have := p.2.isLt
        have := p'.2.isLt
        omega
  have himg : Finset.image (fun p : Fin 3 × Fin 3 =>
      b ⟨br.val * 3 + p.1.val, by omega⟩ ⟨bc.val * 3 + p.2.val, by omega⟩) Finset.univ =
      Finset.univ.filter fun w : Fin 10 => w ≠ 0 := by
    apply Finset.eq_of_subset_of_card_le
    · intro w hw
      obtain ⟨p, _, rfl⟩ := Finset.mem_image.mp hw
      simp [hfull]
    · rw [Finset.card_image_of_injective _ hinj]
      decide
  have hvmem : v ∈ Finset.image (fun p : Fin 3 × Fin 3 =>
      b ⟨br.val * 3 + p.1.val, by omega⟩ ⟨bc.val * 3 + p.2.val, by omega⟩) Finset.univ := by
    rw [himg]
    simp [hv]
  obtain ⟨p, _, hp⟩ := Finset.mem_image.mp hvmem
  exact ⟨p, hp, fun p' hp' => hinj (hp'.trans hp.symm)⟩

lemma tryCandidates_spec (fuel : Nat)
    (IH : ∀ g : Game, RemInv g → NoConflicts g.board → SolverSpec fuel g)
    (row col : Fin 9) :
    ∀ (vals : List (Fin 10)) (g : Game), RemInv g → NoConflicts g.board →
      g.board row col = 0 →
      ∀ cands, cands = cellCandidatesCore g.board row col →
      (tryCandidates (recursiveSolver fuel) row col cands g vals = none →
        fuel < numZeros g.board) ∧
      (∀ g1, tryCandidates (recursiveSolver fuel) row col cands g vals = some (true, g1) →
        Extends g.board g1.board ∧ RemInv g1 ∧ NoConflicts g1.board ∧ g1.remaining = 0) ∧
      (∀ g1, tryCandidates (recursiveSolver fuel) row col cands g vals = some (false, g1) →
        g1.board = g.board ∧ g1.remaining = g.remaining ∧
        ∀ val ∈ vals, cands.getD val.val false = true →
          ∀ S, ¬ Completion (setCell g.board row col val) S) := by
  intro vals
  induction vals with
  | nil =>
    intro g _ _ _ cands _
    refine ⟨fun h => ?_, fun g1 h => ?_, fun g1 h => ?_⟩
    · simp [tryCandidates] at h
    · simp [tryCandidates] at h
    · simp only [tryCandidates, Option.some.injEq, Prod.mk.injEq] at h
      exact ⟨by rw [h.2], by rw [h.2], by simp⟩
  | cons val vals ihv =>
    intro g hrem hnc h0 cands hcands
    by_cases havail : cands.getD val.val false = true
    · -- the candidate is tried
      have hvne : val ≠ 0 := by
        intro hv0
        rw [hv0, hcands, Fin.val_zero, cellCandidatesCore_zero] at havail
        exact Bool.false_ne_true havail
      have hcand : (cellCandidatesCore g.board row col).getD val.val false = true := by
        rw [← hcands]; exact havail
      have hmkb : (makeMove g row col val).board = setCell g.board row col val := rfl
      have hmkr : (makeMove g row col val).remaining = g.remaining - 1 := by
        simp [makeMove, h0, hvne]
      have hnum : numZeros (setCell g.board row col val) + 1 = numZeros g.board :=
        numZeros_setCell_fill g.board row col val h0 hvne
      have hrem1 : RemInv (makeMove g row col val) := by
        rw [RemInv, hmkr, hmkb, hrem]
        omega
      have hnc1 : NoConflicts (makeMove g row col val).board := by
        rw [hmkb]
        exact noConflicts_setCell g.board row col val hnc h0 hvne hcand
      obtain ⟨ihn, iht, ihf⟩ := IH (makeMove g row col val) hrem1 hnc1
      rcases hres : recursiveSolver fuel (makeMove g row col val) with - | ⟨s, g1⟩
      · -- inner call ran out of fuel
        have heq : tryCandidates (recursiveSolver fuel) row col cands g (val :: vals) =
            none := by
          simp only [tryCandidates, havail, if_true, hres]
        have hle := ihn hres
        rw [hmkb] at hle
        refine ⟨fun _ => by omega, fun g1 h => ?_, fun g1 h => ?_⟩
        · rw [heq] at h; cases h
        · rw [heq] at h; cases h
      · cases s
        · -- inner call failed: undo and continue
          obtain ⟨hb1, hr1, hncomp⟩ := ihf g1 hres
          rw [hmkb] at hb1
          rw [hmkr] at hr1
          have hnz1 : g1.board row col ≠ 0 := by
            rw [hb1, setCell_same]
            exact hvne
          have hb2 : (unmakeMove g1 row col).board = setCell g1.board row col 0 := by
            simp [unmakeMove, hnz1]
          have hr2 : (unmakeMove g1 row col).remaining = g1.remaining + 1 := by
            simp [unmakeMove, hnz1]
          have hbg : (unmakeMove g1 row col).board = g.board := by
            rw [hb2, hb1, setCell_cancel g.board row col val h0]
          have hrg : (unmakeMove g1 row col).remaining = g.remaining := by
            rw [hr2, hr1]; omega
          have heq : tryCandidates (recursiveSolver fuel) row col cands g (val :: vals) =
              tryCandidates (recursiveSolver fuel) row col cands (unmakeMove g1 row col)
                vals := by
            simp only [tryCandidates, havail, if_true, hres]
          have hrem2 : RemInv (unmakeMove g1 row col) := by
            rw [RemInv, hbg, hrg]; exact hrem
          have hnc2 : NoConflicts (unmakeMove g1 row col).board := by
            rw [hbg]; exact hnc
          have h02 : (unmakeMove g1 row col).board row col = 0 := by
            rw [hbg]; exact h0
          have hcands2 : cands = cellCandidatesCore (unmakeMove g1 row col).board row col := by
            rw [hbg]; exact hcands
          obtain ⟨ihn2, iht2, ihf2⟩ := ihv (unmakeMove g1 row col) hrem2 hnc2 h02 cands hcands2
          refine ⟨fun h => ?_, fun g2 h => ?_, fun g2 h => ?_⟩
          · rw [heq] at h
            have := ihn2 h
            rw [hbg] at this
            exact this
          · rw [heq] at h
            obtain ⟨he, hv1, hv2, hv3⟩ := iht2 g2 h
            rw [hbg] at he
            exact ⟨he, hv1, hv2, hv3⟩
          · rw [heq] at h
            obtain ⟨he1, he2, he3⟩ := ihf2 g2 h
            rw [hbg] at he1
            rw [hrg] at he2
            refine ⟨he1, he2, fun v hv hav S => ?_⟩
            rcases List.mem_cons.mp hv with rfl | hv
            · exact hncomp S
            · have := he3 v hv hav S
              rw [hbg] at this
              exact this
        · -- inner call succeeded
          obtain ⟨he, hv1, hv2, hv3⟩ := iht g1 hres
          rw [hmkb] at he
          have heq : tryCandidates (recursiveSolver fuel) row col cands g (val :: vals) =
              some (true, g1) := by
            simp only [tryCandidates, havail, if_true, hres]
          have hext : Extends g.board g1.board :=
            extends_trans (extends_setCell g.board row col val h0) he
          refine ⟨fun h => ?_, fun g2 h => ?_, fun g2 h => ?_⟩
          · rw [heq] at h; cases h
          · rw [heq] at h
            cases h
            exact ⟨hext, hv1, hv2, hv3⟩
          · rw [heq] at h; cases h
    · -- the candidate is skipped
      have havf : cands.getD val.val false = false := by
        cases hcv : cands.getD val.val false
        · rfl
        · exact absurd hcv havail
      have heq : tryCandidates (recursiveSolver fuel) row col cands g (val :: vals) =
          tryCandidates (recursiveSolver fuel) row col cands g vals := by
        simp only [tryCandidates, havf, Bool.false_eq_true, if_false]
      obtain ⟨ihn2, iht2, ihf2⟩ := ihv g hrem hnc h0 cands hcands
      refine ⟨fun h => ?_, fun g2 h => ?_, fun g2 h => ?_⟩
      · rw [heq] at h; exact ihn2 h
      · rw [heq] at h; exact iht2 g2 h
      · rw [heq] at h
        obtain ⟨he1, he2, he3⟩ := ihf2 g2 h
        refine ⟨he1, he2, fun v hv hav S => ?_⟩
        rcases List.mem_cons.mp hv with rfl | hv
        · exact absurd hav havail
        · exact he3 v hv hav S

lemma solver_master : ∀ (fuel : Nat) (g : Game), RemInv g → NoConflicts g.board →
    SolverSpec fuel g := by
  intro fuel
  induction fuel with
  | zero =>
    intro g _ _
    refine ⟨fun _ => Nat.zero_le _, fun g1 h => ?_, fun g1 h => ?_⟩ <;>
      simp [recursiveSolver] at h
  | succ fuel ih =>
    intro g hrem hnc
    by_cases h0 : g.remaining = 0
    · have heq : recursiveSolver (fuel + 1) g = some (true, g) := by
        simp [recursiveSolver, h0]
      refine ⟨fun h => ?_, fun g1 h => ?_, fun g1 h => ?_⟩
      · rw [heq] at h; cases h
      · rw [heq] at h
        cases h
        exact ⟨extends_refl g.board, hrem, hnc, h0⟩
      · rw [heq] at h; cases h
    · have hz : numZeros g.board ≠ 0 := by
        intro hzz
        apply h0
        rw [hrem, hzz]
        rfl
      obtain ⟨rc0, hrc0⟩ := exists_empty_of_numZeros_ne_zero g.board hz
      have hempty := (nextEmptyCell_spec g ⟨rc0, hrc0⟩).1
      have heq : recursiveSolver (fuel + 1) g =
          tryCandidates (recursiveSolver fuel) (nextEmptyCell g).1 (nextEmptyCell g).2
            (cellCandidatesCore g.board (nextEmptyCell g).1 (nextEmptyCell g).2) g
            (List.finRange 10) := by
        simp [recursiveSolver, h0]
      obtain ⟨ln, lt, lf⟩ := tryCandidates_spec fuel ih (nextEmptyCell g).1
        (nextEmptyCell g).2 (List.finRange 10) g hrem hnc hempty _ rfl
      refine ⟨fun h => ?_, fun g1 h => ?_, fun g1 h => ?_⟩
      · rw [heq] at h
        have := ln h
        omega
      · rw [heq] at h
        exact lt g1 h
      · rw [heq] at h
        obtain ⟨hb, hr, hv⟩ := lf g1 h
        refine ⟨hb, hr, fun S hS => ?_⟩
        have hcand := completion_value_candidate hS (nextEmptyCell g).1 (nextEmptyCell g).2
          hempty
        refine hv (S (nextEmptyCell g).1 (nextEmptyCell g).2) (List.mem_finRange _)
          hcand S ⟨hS.1, hS.2.1, ?_⟩
        intro r c hne
        by_cases hp : r = (nextEmptyCell g).1 ∧ c = (nextEmptyCell g).2
        · rw [hp.1, hp.2, setCell_same]
        · rw [setCell_other _ _ _ _ _ _ hp] at hne
          rw [setCell_other _ _ _ _ _ _ hp]
          exact hS.2.2 r c hne

lemma setCell_zero_of_zero (b : BoardFun) (row col : Fin 9) (h0 : b row col = 0) :
    setCell b row col 0 = b := by
  funext r c
  by_cases h : r = row ∧ c = col
  · rw [h.1, h.2, setCell_same, h0]
  · rw [setCell_other _ _ _ _ _ _ h]

lemma numZeros_setCell_overwrite (b : BoardFun) (row col : Fin 9) (v : Fin 10)
    (hnz : b row col ≠ 0) (hv : v ≠ 0) :
    numZeros (setCell b row col v) = numZeros b := by
  unfold numZeros
  congr 1
  ext ⟨r, c⟩
  simp only [Finset.mem_filter, Finset.mem_univ, true_and]
  by_cases h : r = row ∧ c = col
  · rw [h.1, h.2, setCell_same]
    constructor
    · intro hh; exact absurd hh hv
    · intro hh; exact absurd hh hnz
  · rw [setCell_other _ _ _ _ _ _ h]

lemma numZeros_setCell_clear (b : BoardFun) (row col : Fin 9)
    (hnz : b row col ≠ 0) :
    numZeros (setCell b row col 0) = numZeros b + 1 := by
  unfold numZeros
  have hset : (Finset.univ.filter fun rc : Fin 9 × Fin 9 => setCell b row col 0 rc.1 rc.2 = 0)
      = insert (row, col) (Finset.univ.filter fun rc : Fin 9 × Fin 9 => b rc.1 rc.2 = 0) := by
    ext ⟨r, c⟩
    simp only [Finset.mem_filter, Finset.mem_univ, true_and, Finset.mem_insert]
    by_cases h : r = row ∧ c = col
    · rw [h.1, h.2, setCell_same]
      simp
    · rw [setCell_other _ _ _ _ _ _ h]
      have : ¬((r, c) = (row, col)) := by
        intro hrc
        exact h ⟨congrArg Prod.fst hrc, congrArg Prod.snd hrc⟩
      simp [this]
  rw [hset, Finset.card_insert_of_not_mem]
  simp [hnz]

/-! ### Claim theorems -/
/-- C1: for every initial board that satisfies the data-model invariants
(`remaining` counts the zero cells; every non-zero cell is row/column/box
unique) and that has at least one valid completion, `recursiveSolver`
terminates (returns within any fuel exceeding the number of empty cells)
and returns true, and the resulting board has no zero cells and every row,
column and 3×3 box contains each of 1..9 exactly once. -/
theorem C1_solver_solves_solvable (g : Game) (hrem : RemInv g)
    (hnc : NoConflicts g.board) (S : BoardFun) (hS : Completion g.board S)
    (fuel : Nat) (hfuel : numZeros g.board < fuel) :
    ∃ g1, recursiveSolver fuel g = some (true, g1) ∧
      (∀ r c : Fin 9, g1.board r c ≠ 0) ∧
      (∀ (r : Fin 9) (v : Fin 10), v ≠ 0 → ∃! c : Fin 9, g1.board r c = v) ∧
      (∀ (c : Fin 9) (v : Fin 10), v ≠ 0 → ∃! r : Fin 9, g1.board r c = v) ∧
      (∀ (br bc : Fin 3) (v : Fin 10), v ≠ 0 → ∃! p : Fin 3 × Fin 3,
        g1.board ⟨br.val * 3 + p.1.val, by omega⟩ ⟨bc.val * 3 + p.2.val, by omega⟩ = v) := by
  obtain ⟨hn, ht, hf⟩ := solver_master fuel g hrem hnc
  rcases hres : recursiveSolver fuel g with - | ⟨s, g1⟩
  · have := hn hres
    omega
  · cases s
    · obtain ⟨-, -, hnS⟩ := hf g1 hres
      exact absurd hS (hnS S)
    · obtain ⟨hext, hrem1, hnc1, hr0⟩ := ht g1 hres
      have hz1 : numZeros g1.board = 0 := by
        have := hrem1
        rw [RemInv, hr0] at this
        exact_mod_cast this.symm
      have hfull : ∀ r c : Fin 9, g1.board r c ≠ 0 :=
        full_of_numZeros_eq_zero g1.board hz1
      exact ⟨g1, rfl, hfull,
        fun r v hv => full_row_perm g1.board hfull hnc1 r v hv,
        fun c v hv => full_col_perm g1.board hfull hnc1 c v hv,
        fun br bc v hv => full_box_perm g1.board hfull hnc1 br bc v hv⟩

/-- C1 witness: the one-hole puzzle `gW1` satisfies every hypothesis of
`C1_solver_solves_solvable` (with completion `mkBoard cycGrid` and fuel 2),
so the solver solves it. -/
theorem C1_witness :
    RemInv gW1 ∧ NoConflicts gW1.board ∧ Completion gW1.board (mkBoard cycGrid) ∧
      numZeros gW1.board < 2 ∧
      ∃ g1, recursiveSolver 2 gW1 = some (true, g1) ∧
        (∀ r c : Fin 9, g1.board r c ≠ 0) ∧
        (∀ (r : Fin 9) (v : Fin 10), v ≠ 0 → ∃! c : Fin 9, g1.board r c = v) ∧
        (∀ (c : Fin 9) (v : Fin 10), v ≠ 0 → ∃! r : Fin 9, g1.board r c = v) ∧
        (∀ (br bc : Fin 3) (v : Fin 10), v ≠ 0 → ∃! p : Fin 3 × Fin 3,
          g1.board ⟨br.val * 3 + p.1.val, by omega⟩ ⟨bc.val * 3 + p.2.val, by omega⟩ = v) :=
  ⟨by decide, by decide, by decide, by decide,
    C1_solver_solves_solvable gW1 (by decide) (by decide) (mkBoard cycGrid) (by decide)
      2 (by decide)⟩

/-- C2 counterexample: on the invariant-violating game `gBadC2` (full board,
bogus `remaining = 1`) the solver returns false yet `remaining` has changed
from 1 to 2, so failure did not restore the pre-call state. -/
theorem C2_counterexample :
    (recursiveSolver 3 gBadC2).map Prod.fst = some false ∧
    (recursiveSolver 3 gBadC2).map (fun p => p.2.remaining) = some 2 ∧
    gBadC2.remaining = 1 :=
  ⟨by decide, by decide, rfl⟩

/-- C2 (amended): for every game satisfying the data-model invariants,
whenever `recursiveSolver` returns false the board and the remaining count
equal their pre-call values (only `backtracks` may change), and on every
such game with no valid completion the solver returns false (given fuel
exceeding the number of empty cells). -/
theorem C2_failure_restores_state (g : Game) (hrem : RemInv g)
    (hnc : NoConflicts g.board) (fuel : Nat) :
    (∀ g1, recursiveSolver fuel g = some (false, g1) →
      g1.board = g.board ∧ g1.remaining = g.remaining) ∧
    ((∀ S, ¬ Completion g.board S) → numZeros g.board < fuel →
      ∃ g1, recursiveSolver fuel g = some (false, g1)) := by
  obtain ⟨hn, ht, hf⟩ := solver_master fuel g hrem hnc
  refine ⟨fun g1 h => ⟨(hf g1 h).1, (hf g1 h).2.1⟩, fun hnS hfuel => ?_⟩
  rcases hres : recursiveSolver fuel g with - | ⟨s, g1⟩
  · have := hn hres
    omega
  · cases s
    · exact ⟨g1, rfl⟩
    · obtain ⟨hext, hrem1, hnc1, hr0⟩ := ht g1 hres
      have hz1 : numZeros g1.board = 0 := by
        have := hrem1
        rw [RemInv, hr0] at this
        exact_mod_cast this.symm
      exact absurd ⟨full_of_numZeros_eq_zero g1.board hz1, hnc1, hext⟩ (hnS g1.board)

/-- C2 witness: `gW1` satisfies the invariants, so the amended theorem
applies to it (fuel 2). -/
theorem C2_witness :
    RemInv gW1 ∧ NoConflicts gW1.board ∧
      ((∀ g1, recursiveSolver 2 gW1 = some (false, g1) →
        g1.board = gW1.board ∧ g1.remaining = gW1.remaining) ∧
      ((∀ S, ¬ Completion gW1.board S) → numZeros gW1.board < 2 →
        ∃ g1, recursiveSolver 2 gW1 = some (false, g1))) :=
  ⟨by decide, by decide, C2_failure_restores_state gW1 (by decide) (by decide) 2⟩

/-- C3: for every board, every in-range cell and every value 1..9, the
candidate flag at that value is true iff the value does not already appear
in the cell's row, column, or containing 3×3 box. -/
theorem C3_candidates_iff_absent (g : Game) (row col : Fin 9) (v : Fin 10)
    (hv : v ≠ 0) :
    ((cellCandidatesCore g.board row col).getD v.val false = true ↔
      (∀ i : Fin 9, g.board row i ≠ v) ∧ (∀ i : Fin 9, g.board i col ≠ v) ∧
      (∀ i j : Fin 9, i.val / 3 = row.val / 3 → j.val / 3 = col.val / 3 →
        g.board i j ≠ v)) :=
  cellCandidatesCore_true_iff g.board row col v hv

/-- C3 witness: instantiation at the one-hole puzzle, cell (0,0), value 5. -/
theorem C3_witness :
    (5 : Fin 10) ≠ 0 ∧
    ((cellCandidatesCore gW1.board 0 0).getD (5 : Fin 10).val false = true ↔
      (∀ i : Fin 9, gW1.board 0 i ≠ 5) ∧ (∀ i : Fin 9, gW1.board i 0 ≠ 5) ∧
      (∀ i j : Fin 9, i.val / 3 = (0 : Fin 9).val / 3 → j.val / 3 = (0 : Fin 9).val / 3 →
        gW1.board i j ≠ 5)) :=
  ⟨by decide, C3_candidates_iff_absent gW1 0 0 5 (by decide)⟩

/-- C4: on every board with at least one empty cell, `NextEmptyCell` returns
an empty cell whose candidate count is minimal among all empty cells, and
the first such cell in row-major scan order. -/
theorem C4_nextEmptyCell_first_min (g : Game)
    (h : ∃ rc : Fin 9 × Fin 9, g.board rc.1 rc.2 = 0) :
    g.board (nextEmptyCell g).1 (nextEmptyCell g).2 = 0 ∧
    (∀ r c : Fin 9, g.board r c = 0 →
      candCount g.board (nextEmptyCell g).1 (nextEmptyCell g).2 ≤ candCount g.board r c) ∧
    (∀ r c : Fin 9, g.board r c = 0 →
      candCount g.board r c = candCount g.board (nextEmptyCell g).1 (nextEmptyCell g).2 →
      cellKey (nextEmptyCell g) ≤ cellKey (r, c)) :=
  nextEmptyCell_spec g h

/-- C4 witness: the one-hole puzzle has an empty cell, so the theorem
applies to it. -/
theorem C4_witness :
    (∃ rc : Fin 9 × Fin 9, gW1.board rc.1 rc.2 = 0) ∧
    (gW1.board (nextEmptyCell gW1).1 (nextEmptyCell gW1).2 = 0 ∧
    (∀ r c : Fin 9, gW1.board r c = 0 →
      candCount gW1.board (nextEmptyCell gW1).1 (nextEmptyCell gW1).2 ≤
        candCount gW1.board r c) ∧
    (∀ r c : Fin 9, gW1.board r c = 0 →
      candCount gW1.board r c =
        candCount gW1.board (nextEmptyCell gW1).1 (nextEmptyCell gW1).2 →
      cellKey (nextEmptyCell gW1) ≤ cellKey (r, c))) :=
  ⟨⟨(0, 0), by decide⟩, C4_nextEmptyCell_first_min gW1 ⟨(0, 0), by decide⟩⟩

/-- C6 counterexample: `gC6` satisfies the remaining-count invariant, but
`MakeMove(0, 0, 0)` on its non-zero cell (0,0) clears the cell without
incrementing `remaining`, breaking the invariant. -/
theorem C6_counterexample : RemInv gC6 ∧ ¬ RemInv (makeMove gC6 0 0 0) :=
  ⟨by decide, by decide⟩

/-- C6 (amended): the invariant `remaining = #zero cells` is preserved by
`UnmakeMove` for every in-range cell, and by `MakeMove(row, col, val)` for
every in-range cell and `val` in 0..9 except when a non-zero cell is
overwritten with 0 (i.e. whenever `val ≠ 0` or the cell is empty). -/
theorem C6_invariant_preserved (g : Game) (row col : Fin 9) (val : Fin 10)
    (hpre : RemInv g) (hok : val ≠ 0 ∨ g.board row col = 0) :
    RemInv (makeMove g row col val) ∧ RemInv (unmakeMove g row col) := by
  constructor
  · by_cases h0 : g.board row col = 0
    · by_cases hv : val = 0
      · have hb : (makeMove g row col val).board = g.board := by
          show setCell g.board row col val = g.board
          rw [hv]
          exact setCell_zero_of_zero g.board row col h0
        have hr : (makeMove g row col val).remaining = g.remaining := by
          simp [makeMove, hv]
        rw [RemInv, hb, hr]
        exact hpre
      · have hr : (makeMove g row col val).remaining = g.remaining - 1 := by
          simp [makeMove, h0, hv]
        have hnum := numZeros_setCell_fill g.board row col val h0 hv
        rw [RemInv, hr, hpre]
        show (numZeros g.board : Int) - 1 = (numZeros (setCell g.board row col val) : Int)
        omega
    · have hv : val ≠ 0 := by
        rcases hok with hv | hz
        · exact hv
        · exact absurd hz h0
      have hr : (makeMove g row col val).remaining = g.remaining := by
        simp [makeMove, h0]
      have hnum := numZeros_setCell_overwrite g.board row col val h0 hv
      rw [RemInv, hr, hpre]
      show (numZeros g.board : Int) = (numZeros (setCell g.board row col val) : Int)
      rw [hnum]
  · by_cases h0 : g.board row col = 0
    · have hb : unmakeMove g row col = { g with backtracks := g.backtracks + 1 } := by
        simp [unmakeMove, h0]
      rw [hb]
      exact hpre
    · have hb : (unmakeMove g row col).board = setCell g.board row col 0 := by
        simp [unmakeMove, h0]
      have hr : (unmakeMove g row col).remaining = g.remaining + 1 := by
        simp [unmakeMove, h0]
      have hnum := numZeros_setCell_clear g.board row col h0
      rw [RemInv, hb, hr, hnum, hpre]
      push_cast
      omega

/-- C6 witness: instantiation at `gC6`, cell (1,1) (empty there), value 3. -/
theorem C6_witness :
    RemInv gC6 ∧ ((3 : Fin 10) ≠ 0 ∨ gC6.board 1 1 = 0) ∧
      RemInv (makeMove gC6 1 1 3) ∧ RemInv (unmakeMove gC6 1 1) :=
  ⟨by decide, Or.inl (by decide),
    (C6_invariant_preserved gC6 1 1 3 (by decide) (Or.inl (by decide))).1,
    (C6_invariant_preserved gC6 1 1 3 (by decide) (Or.inl (by decide))).2⟩

/-- C7: assigning a value 1..9 to an empty cell and then unassigning it
restores the whole board and the remaining count, while `backtracks`
increases by exactly one; moreover `UnmakeMove` increments `backtracks`
even when the targeted cell is already empty. -/
theorem C7_roundtrip (g : Game) (row col : Fin 9) (v : Fin 10)
    (h0 : g.board row col = 0) (hv : v ≠ 0) :
    (unmakeMove (makeMove g row col v) row col).board = g.board ∧
    (unmakeMove (makeMove g row col v) row col).remaining = g.remaining ∧
    (unmakeMove (makeMove g row col v) row col).backtracks = g.backtracks + 1 ∧
    ∀ (g2 : Game) (r c : Fin 9), g2.board r c = 0 →
      (unmakeMove g2 r c).backtracks = g2.backtracks + 1 := by
  have hmkb : (makeMove g row col v).board = setCell g.board row col v := rfl
  have hnz : (makeMove g row col v).board row col ≠ 0 := by
    rw [hmkb, setCell_same]
    exact hv
  have hmkr : (makeMove g row col v).remaining = g.remaining - 1 := by
    simp [makeMove, h0, hv]
  have hb : (unmakeMove (makeMove g row col v) row col).board =
      setCell (makeMove g row col v).board row col 0 := by
    simp [unmakeMove, hnz]
  have hr : (unmakeMove (makeMove g row col v) row col).remaining =
      (makeMove g row col v).remaining + 1 := by
    simp [unmakeMove, hnz]
  have hk : (unmakeMove (makeMove g row col v) row col).backtracks =
      (makeMove g row col v).backtracks + 1 := by
    simp [unmakeMove, hnz]
  refine ⟨?_, ?_, ?_, ?_⟩
  · rw [hb, hmkb, setCell_cancel g.board row col v h0]
  · rw [hr, hmkr]
    omega
  · rw [hk]
    rfl
  · intro g2 r c h
    simp [unmakeMove, h]

/-- C7 witness: the round trip at `gW1`, cell (0,0), value 1. -/
theorem C7_witness :
    gW1.board 0 0 = 0 ∧ (1 : Fin 10) ≠ 0 ∧
      (unmakeMove (makeMove gW1 0 0 1) 0 0).board = gW1.board ∧
      (unmakeMove (makeMove gW1 0 0 1) 0 0).remaining = gW1.remaining ∧
      (unmakeMove (makeMove gW1 0 0 1) 0 0).backtracks = gW1.backtracks + 1 :=
  ⟨by decide, by decide,
    (C7_roundtrip gW1 0 0 1 (by decide) (by decide)).1,
    (C7_roundtrip gW1 0 0 1 (by decide) (by decide)).2.1,
    (C7_roundtrip gW1 0 0 1 (by decide) (by decide)).2.2.1⟩

/-- C10: the candidate list always has length exactly 10 with index 0 false,
every true index is a value 1..9, and consequently the search never assigns
0: any result of `recursiveSolver` on an invariant-satisfying game leaves
every originally non-zero cell unchanged (cells are only filled, never
cleared). -/
theorem C10_candidates_shape (g : Game) (row col : Fin 9) :
    (cellCandidatesCore g.board row col).length = 10 ∧
    (cellCandidatesCore g.board row col).getD 0 false = false ∧
    (∀ v : Nat, (cellCandidatesCore g.board row col).getD v false = true →
      1 ≤ v ∧ v ≤ 9) ∧
    (∀ (fuel : Nat) (g0 : Game), RemInv g0 → NoConflicts g0.board →
      ∀ (s : Bool) (g1 : Game), recursiveSolver fuel g0 = some (s, g1) →
        ∀ r c : Fin 9, g0.board r c ≠ 0 → g1.board r c = g0.board r c) := by
  refine ⟨cellCandidatesCore_length g.board row col,
    cellCandidatesCore_zero g.board row col,
    fun v hv => cellCandidatesCore_true_bounds g.board row col v hv,
    fun fuel g0 hrem hnc s g1 hres r c hnz => ?_⟩
  obtain ⟨hn, ht, hf⟩ := solver_master fuel g0 hrem hnc
  cases s
  · rw [(hf g1 hres).1]
  · exact (ht g1 hres).1 r c hnz

/-- C10 witness: the shape facts instantiated at the one-hole puzzle,
cell (0,0). -/
theorem C10_witness :
    (cellCandidatesCore gW1.board 0 0).length = 10 ∧
    (cellCandidatesCore gW1.board 0 0).getD 0 false = false :=
  ⟨(C10_candidates_shape gW1 0 0).1, (C10_candidates_shape gW1 0 0).2.1⟩

/-- C5: coordinates with `row < 0`, `row > 9`, `col < 0` or `col > 9` hit the
explicit invalid-row/invalid-col panics, but `row = 9` (or `col = 9`) slips
through the guard `row < 0 || DIM < row` and instead causes a generic
index-out-of-range runtime panic at the first slice access — not the
OutOfRange error the claim describes; in-range coordinates return the
candidate list. -/
theorem C5_bounds_guard_off_by_one :
    (∀ (g : Game) (row col : Int), row < 0 ∨ 9 < row →
      cellCandidates g row col = .error (.invalidRow row)) ∧
    (∀ (g : Game) (row col : Int), ¬(row < 0 ∨ 9 < row) → col < 0 ∨ 9 < col →
      cellCandidates g row col = .error (.invalidCol col)) ∧
    (∀ g : Game, cellCandidates g 9 0 = .error .indexOutOfRange) ∧
    (∀ g : Game, cellCandidates g 0 9 = .error .indexOutOfRange) ∧
    cellCandidates newGame 0 0 = .ok (cellCandidatesCore newGame.board 0 0) := by
  refine ⟨fun g row col h => ?_, fun g row col h1 h2 => ?_, fun g => ?_, fun g => ?_, ?_⟩
  · rw [cellCandidates, if_pos h]
  · rw [cellCandidates, if_neg h1, if_pos h2]
  · rfl
  · rfl
  · rfl

/-- C5 witness: concrete out-of-range coordinates on the empty game. -/
theorem C5_witness :
    ((-1 : Int) < 0 ∨ (9 : Int) < -1) ∧
    cellCandidates newGame (-1) 5 = .error (.invalidRow (-1)) ∧
    cellCandidates newGame 10 5 = .error (.invalidRow 10) ∧
    cellCandidates newGame 5 12 = .error (.invalidCol 12) :=
  ⟨Or.inl (by decide),
    (C5_bounds_guard_off_by_one.1 newGame (-1) 5 (Or.inl (by decide))),
    (C5_bounds_guard_off_by_one.1 newGame 10 5 (Or.inr (by decide))),
    (C5_bounds_guard_off_by_one.2.1 newGame 5 12 (by decide) (Or.inr (by decide)))⟩

lemma digitsOf_cons_digit {c : Nat} (h : 47 < c ∧ c < 58) (cs : List Nat) :
    digitsOf (c :: cs) = (c - 48) :: digitsOf cs := by
  simp [digitsOf, List.filter_cons, h]

lemma digitsOf_cons_nondigit {c : Nat} (h : ¬(47 < c ∧ c < 58)) (cs : List Nat) :
    digitsOf (c :: cs) = digitsOf cs := by
  simp [digitsOf, List.filter_cons, h]

/-- Full characterisation of the line loop: if the line's digits fit in the
remaining columns the loop succeeds, the parsed digits land in columns
`col ..`, and every other cell is untouched. -/
lemma parseLine_ok (row : Fin 9) :
    ∀ (cs : List Nat) (col : Nat) (g : Game),
      col + (digitsOf cs).length ≤ 9 →
      ∃ g1, parseLine row cs col g = .ok g1 ∧
        (∀ c2 : Fin 9, (g1.board row c2).val =
          if col ≤ c2.val ∧ c2.val < col + (digitsOf cs).length
          then (digitsOf cs).getD (c2.val - col) 0
          else (g.board row c2).val) ∧
        (∀ r2 : Fin 9, r2 ≠ row → ∀ c2 : Fin 9, g1.board r2 c2 = g.board r2 c2) := by
  intro cs
  induction cs with
  | nil =>
    intro col g _
    refine ⟨g, rfl, fun c2 => ?_, fun _ _ _ => rfl⟩
    have : ¬(col ≤ c2.val ∧ c2.val < col + (digitsOf []).length) := by
      simp [digitsOf]
    rw [if_neg this]
  | cons c cs ih =>
    intro col g hlen
    by_cases hd : 47 < c ∧ c < 58
    · rw [digitsOf_cons_digit hd] at hlen
      have hcol : col < 9 := by
        simp only [List.length_cons] at hlen
        omega
      have hc0 : 0 < c := by omega
      have heq : parseLine row (c :: cs) col g =
          parseLine row cs (col + 1) (makeMove g row ⟨col, hcol⟩ ⟨(c - 48) % 10, by omega⟩) := by
        simp [parseLine, hd, hcol, hc0]
      set gmk := makeMove g row ⟨col, hcol⟩ ⟨(c - 48) % 10, by omega⟩ with hgmk
      have hlen1 : col + 1 + (digitsOf cs).length ≤ 9 := by
        simp only [List.length_cons] at hlen
        omega
      obtain ⟨g1, hok, hrow, hother⟩ := ih (col + 1) gmk hlen1
      refine ⟨g1, by rw [heq, hok], fun c2 => ?_, fun r2 hr2 c2 => ?_⟩
      · rw [hrow c2]
        rw [digitsOf_cons_digit hd]
        simp only [List.length_cons]
        by_cases h1 : col + 1 ≤ c2.val ∧ c2.val < col + 1 + (digitsOf cs).length
        · rw [if_pos h1, if_pos (by omega)]
          have hidx : c2.val - col = (c2.val - (col + 1)) + 1 := by omega
          rw [hidx]
          rfl
        · rw [if_neg h1]
          by_cases h2 : col ≤ c2.val ∧ c2.val < col + ((digitsOf cs).length + 1)
          · have hc2 : c2.val = col := by omega
            rw [if_pos h2]
            have : gmk.board row c2 = ⟨(c - 48) % 10, by omega⟩ := by
              rw [hgmk]
              show setCell g.board row ⟨col, hcol⟩ ⟨(c - 48) % 10, by omega⟩ row c2 = _
              have : c2 = ⟨col, hcol⟩ := Fin.ext hc2
              rw [this, setCell_same]
            rw [this]
            have : c2.val - col = 0 := by omega
            rw [this]
            show (c - 48) % 10 = c - 48
            omega
          · rw [if_neg h2]
            have : gmk.board row c2 = g.board row c2 := by
              rw [hgmk]
              show setCell g.board row ⟨col, hcol⟩ ⟨(c - 48) % 10, by omega⟩ row c2 = _
              refine setCell_other _ _ _ _ _ _ ?_
              rintro ⟨-, hcc⟩
              have : c2.val = col := by rw [hcc]
              omega
            rw [this]
      · rw [hother r2 hr2 c2]
        rw [hgmk]
        show setCell g.board row ⟨col, hcol⟩ ⟨(c - 48) % 10, by omega⟩ r2 c2 = _
        refine setCell_other _ _ _ _ _ _ ?_
        rintro ⟨hrr, -⟩
        exact hr2 hrr
    · rw [digitsOf_cons_nondigit hd] at hlen
      have heq : parseLine row (c :: cs) col g = parseLine row cs col g := by
        simp [parseLine, hd]
      obtain ⟨g1, hok, hrow, hother⟩ := ih col g hlen
      refine ⟨g1, by rw [heq, hok], fun c2 => ?_, hother⟩
      rw [hrow c2, digitsOf_cons_nondigit hd]

lemma getD_lines_eq {lines : List (List Nat)} {i : Nat} (h : i < lines.length) :
    lines.getD i [] = lines[i] := by
  rw [List.getD_eq_getElem?_getD, List.getElem?_eq_getElem h]
  rfl

/-- Success characterisation of the scanner loop: when each requested line
exists and yields at most 9 digits, the loop succeeds and each requested
row consists of that line's digits followed by the untouched cells. -/
lemma readRows_ok (lines : List (List Nat)) :
    ∀ (rows : List (Fin 9)) (g : Game), rows.Nodup →
      (∀ row ∈ rows, row.val < lines.length) →
      (∀ row ∈ rows, (digitsOf (lines.getD row.val [])).length ≤ 9) →
      ∃ g1, readRows lines rows g = .ok g1 ∧
        (∀ r : Fin 9, r ∉ rows → g1.board r = g.board r) ∧
        (∀ row ∈ rows, ∀ c2 : Fin 9, (g1.board row c2).val =
          if c2.val < (digitsOf (lines.getD row.val [])).length
          then (digitsOf (lines.getD row.val [])).getD c2.val 0
          else (g.board row c2).val) := by
  intro rows
  induction rows with
  | nil =>
    intro g _ _ _
    exact ⟨g, rfl, fun _ _ => rfl, by simp⟩
  | cons row rows ih =>
    intro g hnd hmem hdig
    have hrowlen : row.val < lines.length := hmem row (List.mem_cons_self row rows)
    have hget : lines.get? row.val = some lines[row.val] := by
      rw [List.get?_eq_getElem?, List.getElem?_eq_getElem hrowlen]
    have hgetd : lines.getD row.val [] = lines[row.val] := getD_lines_eq hrowlen
    have hdig0 : 0 + (digitsOf lines[row.val]).length ≤ 9 := by
      rw [Nat.zero_add, ← hgetd]
      exact hdig row (List.mem_cons_self row rows)
    obtain ⟨gmid, hok, hrowchar, hother⟩ := parseLine_ok row lines[row.val] 0 g hdig0
    have heq : readRows lines (row :: rows) g = readRows lines rows gmid := by
      simp only [readRows]
      rw [hget]
      simp only
      rw [hok]
    have hndr : rows.Nodup := (List.nodup_cons.mp hnd).2
    have hrowni : row ∉ rows := (List.nodup_cons.mp hnd).1
    obtain ⟨g1, hok1, hunch, hchar⟩ := ih gmid hndr
      (fun r hr => hmem r (List.mem_cons_of_mem row hr))
      (fun r hr => hdig r (List.mem_cons_of_mem row hr))
    refine ⟨g1, by rw [heq, hok1], fun r hr => ?_, fun r hr c2 => ?_⟩
    · have hr1 : r ∉ rows := fun h => hr (List.mem_cons_of_mem row h)
      have hr2 : r ≠ row := fun h => hr (h ▸ List.mem_cons_self row rows)
      rw [hunch r hr1]
      funext c2
      exact hother r hr2 c2
    · rcases List.mem_cons.mp hr with rfl | hr
      · rw [congrFun (hunch r hrowni) c2, hrowchar c2, hgetd]
        by_cases hlt : c2.val < (digitsOf lines[r.val]).length
        · rw [if_pos (by omega), if_pos hlt]
          have : c2.val - 0 = c2.val := by omega
          rw [this]
        · rw [if_neg (by omega), if_neg hlt]
      · rw [hchar r hr c2]
        have hrne : r ≠ row := fun h => hrowni (h ▸ hr)
        by_cases hlt : c2.val < (digitsOf (lines.getD r.val [])).length
        · rw [if_pos hlt, if_pos hlt]
        · rw [if_neg hlt, if_neg hlt]
          rw [hother r hrne c2]

/-- EOF characterisation of the scanner loop: rows before the first missing
one parse fine, and the first missing row raises the EOF error with its
1-based number. -/
lemma readRows_eof (lines : List (List Nat))
    (hd : ∀ l ∈ lines, (digitsOf l).length ≤ 9) :
    ∀ (rows1 : List (Fin 9)) (r0 : Fin 9) (rows2 : List (Fin 9)) (g : Game),
      (∀ r ∈ rows1, r.val < lines.length) →
      r0.val = lines.length →
      readRows lines (rows1 ++ r0 :: rows2) g = .error (.eof (lines.length + 1)) := by
  intro rows1
  induction rows1 with
  | nil =>
    intro r0 rows2 g _ hr0
    have hnone : lines.get? r0.val = none := by
      rw [List.get?_eq_getElem?]
      exact List.getElem?_eq_none (by omega)
    simp only [List.nil_append, readRows]
    rw [hnone, hr0]
  | cons r rows1 ih =>
    intro r0 rows2 g hmem hr0
    have hrlen : r.val < lines.length := hmem r (List.mem_cons_self r rows1)
    have hget : lines.get? r.val = some lines[r.val] := by
      rw [List.get?_eq_getElem?, List.getElem?_eq_getElem hrlen]
    have hdig0 : 0 + (digitsOf lines[r.val]).length ≤ 9 := by
      rw [Nat.zero_add]
      exact hd lines[r.val] (List.getElem_mem hrlen)
    obtain ⟨gmid, hok, -, -⟩ := parseLine_ok r lines[r.val] 0 g hdig0
    have heq : readRows lines ((r :: rows1) ++ r0 :: rows2) g =
        readRows lines (rows1 ++ r0 :: rows2) gmid := by
      simp only [List.cons_append, readRows]
      rw [hget]
      simp only
      rw [hok]
      rfl
    rw [heq]
    exact ih r0 rows2 gmid (fun x hx => hmem x (List.mem_cons_of_mem r hx)) hr0

lemma finRange_split (L : Nat) (hL : L < 9) :
    List.finRange 9 = (List.finRange 9).take L ++
      (⟨L, hL⟩ : Fin 9) :: (List.finRange 9).drop (L + 1) := by
  have hlen : L < (List.finRange 9).length := by
    rw [List.length_finRange]
    exact hL
  conv_lhs => rw [← List.take_append_drop L (List.finRange 9)]
  congr 1
  rw [List.drop_eq_getElem_cons hlen, List.getElem_finRange]
  rfl

lemma mem_take_finRange {L : Nat} {r : Fin 9} (hr : r ∈ (List.finRange 9).take L) :
    r.val < L := by
  obtain ⟨i, hi, heq⟩ := List.mem_iff_getElem.mp hr
  have htk : (List.finRange 9).take L = List.take L (List.finRange 9) := rfl
  have hi2 : i < L := by
    have := hi
    rw [List.length_take, List.length_finRange] at this
    omega
  rw [List.getElem_take, List.getElem_finRange] at heq
  rw [← heq]
  exact hi2

/-- C8 (amended): `readGame` fails (with the EOF error naming the first
missing 1-based row) exactly when fewer than 9 lines are supplied; a line
yielding fewer than 9 digit characters is NOT an error: for inputs of at
least 9 lines each yielding at most 9 digits, parsing succeeds and row `r`,
column `c` holds the `c`-th digit character of line `r` (non-digits
skipped), cells beyond the line's digits staying 0. -/
theorem C8_readGame_spec (lines : List (List Nat))
    (hd : ∀ l ∈ lines, (digitsOf l).length ≤ 9) :
    (lines.length < 9 → readGame lines = .error (.eof (lines.length + 1))) ∧
    (9 ≤ lines.length → ∃ g1, readGame lines = .ok g1 ∧
      ∀ r c : Fin 9, (g1.board r c).val = (digitsOf (lines.getD r.val [])).getD c.val 0) := by
  constructor
  · intro hL
    rw [readGame, finRange_split lines.length hL]
    exact readRows_eof lines hd _ ⟨lines.length, hL⟩ _ newGame
      (fun r hr => mem_take_finRange hr) rfl
  · intro hL
    have hmem : ∀ row ∈ List.finRange 9, row.val < lines.length :=
      fun row _ => lt_of_lt_of_le row.isLt hL
    have hdig : ∀ row ∈ List.finRange 9, (digitsOf (lines.getD row.val [])).length ≤ 9 := by
      intro row _
      have hb := hmem row (List.mem_finRange row)
      rw [getD_lines_eq hb]
      exact hd _ (List.getElem_mem hb)
    obtain ⟨g1, hok, -, hchar⟩ := readRows_ok lines (List.finRange 9) newGame
      (List.nodup_finRange 9) hmem hdig
    refine ⟨g1, hok, fun r c => ?_⟩
    rw [hchar r (List.mem_finRange r) c]
    by_cases hlt : c.val < (digitsOf (lines.getD r.val [])).length
    · rw [if_pos hlt]
    · rw [if_neg hlt, List.getD_eq_default _ _ (by omega)]
      rfl

/-- C8 counterexample: a 9-line input whose first line yields only five
digit characters parses WITHOUT error, contradicting the claim that such a
line is a parse failure; and a first line with ten digit characters makes
`readGame` hit the index-out-of-range panic instead of ignoring the digits
beyond the ninth. -/
theorem C8_counterexample :
    shortLines.length = 9 ∧
    (readGame shortLines).toOption.isSome = true ∧
    readGame longLines = .error .indexPanic :=
  ⟨rfl, by rfl, by rfl⟩

/-- C8 witness: the spec theorem applied to nine lines of nine digits. -/
theorem C8_witness :
    (∀ l ∈ nineLines, (digitsOf l).length ≤ 9) ∧ 9 ≤ nineLines.length ∧
      ∃ g1, readGame nineLines = .ok g1 ∧
        ∀ r c : Fin 9, (g1.board r c).val =
          (digitsOf (nineLines.getD r.val [])).getD c.val 0 :=
  ⟨by decide, by decide, (C8_readGame_spec nineLines (by decide)).2 (by decide)⟩

lemma foldlM_eq_ok {α σ E : Type} (f : σ → α → Except E σ) (g : σ → α → σ)
    (l : List α) (h : ∀ s : σ, ∀ a ∈ l, f s a = .ok (g s a)) :
    ∀ s : σ, l.foldlM f s = .ok (l.foldl g s) := by
  induction l with
  | nil => intro s; rfl
  | cons a l ih =>
    intro s
    rw [List.foldlM_cons, h s a (List.mem_cons_self a l)]
    show l.foldlM f (g s a) = _
    rw [ih (fun s2 a2 ha2 => h s2 a2 (List.mem_cons_of_mem a ha2)) (g s a), List.foldl_cons]

lemma boardAtB_ok (b : Board) (ri ci : Int) (hr : 0 ≤ ri ∧ ri < 9)
    (hc : 0 ≤ ci ∧ ci < 9) :
    boardAtB b ri ci = .ok (b.cell ⟨ri.toNat, by omega⟩ ⟨ci.toNat, by omega⟩) := by
  rw [boardAtB, dif_pos hr, dif_pos hc]

lemma bind_ok_eq {E α β : Type} (a : α) (k : α → Except E β) :
    (Except.ok a >>= k : Except E β) = k a := rfl

lemma foldl_range9_eq_finRange {σ : Type} (g : σ → Fin 9 → σ) :
    ∀ s : σ, (List.range 9).foldl (fun acc i => g acc ⟨i % 9, by omega⟩) s =
      (List.finRange 9).foldl g s := by
  intro s
  have h : List.range 9 = (List.finRange 9).map Fin.val := rfl
  rw [h, List.foldl_map]
  refine foldl_funext _ _ (fun acc i => ?_) _ _
  have hmk : (⟨i.val % 9, by omega⟩ : Fin 9) = i := by
    refine Fin.ext ?_
    show i.val % 9 = i.val
    have := i.isLt
    omega
  rw [hmk]

lemma foldl_range3_eq_finRange {σ : Type} (g : σ → Fin 3 → σ) :
    ∀ s : σ, (List.range 3).foldl (fun acc i => g acc ⟨i % 3, by omega⟩) s =
      (List.finRange 3).foldl g s := by
  intro s
  have h : List.range 3 = (List.finRange 3).map Fin.val := rfl
  rw [h, List.foldl_map]
  refine foldl_funext _ _ (fun acc i => ?_) _ _
  have hmk : (⟨i.val % 3, by omega⟩ : Fin 3) = i := by
    refine Fin.ext ?_
    show i.val % 3 = i.val
    have := i.isLt
    omega
  rw [hmk]

/-- In-range agreement of the variant checked CellCandidates with the pure
candidate computation. -/
lemma cellCandidatesB_ok (b : Board) (row col : Fin 9) :
    cellCandidatesB b (row.val : Int) (col.val : Int) =
      .ok (cellCandidatesCore b.cell row col) := by
  have hrow : ¬((row.val : Int) < 0 ∨ (9 : Int) < (row.val : Int)) := by
    have := row.isLt
    omega
  have hcol : ¬((col.val : Int) < 0 ∨ (9 : Int) < (col.val : Int)) := by
    have := col.isLt
    omega
  have hph1 : ∀ (cs : List Bool), ∀ i ∈ List.range 9,
      (do
        let v ← boardAtB b (row.val : Int) (i : Int)
        pure (cs.set v.val false) : Except GoPanic (List Bool)) =
      .ok (cs.set (b.cell row ⟨i % 9, by omega⟩).val false) := by
    intro cs i hi
    have hi9 : i < 9 := List.mem_range.mp hi
    rw [boardAtB_ok b _ _ (by have := row.isLt; omega) (by omega)]
    rw [bind_ok_eq]
    have hmkrow : (⟨((row.val : Int)).toNat, by have := row.isLt; omega⟩ : Fin 9) = row := by
      refine Fin.ext ?_
      show ((row.val : Int)).toNat = row.val
      omega
    have hmki : (⟨((i : Int)).toNat, by omega⟩ : Fin 9) =
        (⟨i % 9, by omega⟩ : Fin 9) := by
      refine Fin.ext ?_
      show ((i : Int)).toNat = i % 9
      omega
    rw [hmkrow, hmki]
    rfl
  have hph2 : ∀ (cs : List Bool), ∀ i ∈ List.range 9,
      (do
        let v ← boardAtB b (i : Int) (col.val : Int)
        pure (cs.set v.val false) : Except GoPanic (List Bool)) =
      .ok (cs.set (b.cell ⟨i % 9, by omega⟩ col).val false) := by
    intro cs i hi
    have hi9 : i < 9 := List.mem_range.mp hi
    rw [boardAtB_ok b _ _ (by omega) (by have := col.isLt; omega)]
    rw [bind_ok_eq]
    have hmkcol : (⟨((col.val : Int)).toNat, by have := col.isLt; omega⟩ : Fin 9) = col := by
      refine Fin.ext ?_
      show ((col.val : Int)).toNat = col.val
      omega
    have hmki : (⟨((i : Int)).toNat, by omega⟩ : Fin 9) =
        (⟨i % 9, by omega⟩ : Fin 9) := by
      refine Fin.ext ?_
      show ((i : Int)).toNat = i % 9
      omega
    rw [hmkcol, hmki]
    rfl
  have hbox : ∀ (cs : List Bool), ∀ dr ∈ List.range 3,
      ((List.range 3).foldlM (fun cs2 (dc : Nat) => do
        let v ← boardAtB b ((row.val : Int) / 3 * 3 + (dr : Int))
          ((col.val : Int) / 3 * 3 + (dc : Int))
        pure (cs2.set v.val false)) cs : Except GoPanic (List Bool)) =
      .ok ((List.range 3).foldl (fun cs2 dc =>
        cs2.set (b.cell (boxStart row ⟨dr % 3, by omega⟩)
          (boxStart col ⟨dc % 3, by omega⟩)).val false) cs) := by
    intro cs dr hdr
    have hdr3 : dr < 3 := List.mem_range.mp hdr
    refine foldlM_eq_ok _ _ _ (fun cs2 dc hdc => ?_) cs
    have hdc3 : dc < 3 := List.mem_range.mp hdc
    have hrb : (0 : Int) ≤ (row.val : Int) / 3 * 3 + (dr : Int) ∧
        (row.val : Int) / 3 * 3 + (dr : Int) < 9 := by
      have := row.isLt
      omega
    have hcb : (0 : Int) ≤ (col.val : Int) / 3 * 3 + (dc : Int) ∧
        (col.val : Int) / 3 * 3 + (dc : Int) < 9 := by
      have := col.isLt
      omega
    rw [boardAtB_ok b _ _ hrb hcb]
    rw [bind_ok_eq]
    have hmkr : (⟨((row.val : Int) / 3 * 3 + (dr : Int)).toNat, by omega⟩ : Fin 9) =
        boxStart row ⟨dr % 3, by omega⟩ := by
      refine Fin.ext ?_
      show ((row.val : Int) / 3 * 3 + (dr : Int)).toNat = row.val / 3 * 3 + dr % 3
      have := row.isLt
      omega
    have hmkc : (⟨((col.val : Int) / 3 * 3 + (dc : Int)).toNat, by omega⟩ : Fin 9) =
        boxStart col ⟨dc % 3, by omega⟩ := by
      refine Fin.ext ?_
      show ((col.val : Int) / 3 * 3 + (dc : Int)).toNat = col.val / 3 * 3 + dc % 3
      have := col.isLt
      omega
    rw [hmkr, hmkc]
    rfl
  rw [cellCandidatesB, if_neg hrow, if_neg hcol]
  dsimp only
  rw [foldlM_eq_ok _ _ (List.range 9) hph1 initialCandidates, bind_ok_eq]
  rw [foldlM_eq_ok _ _ (List.range 9) hph2 _, bind_ok_eq]
  rw [foldlM_eq_ok _ _ (List.range 3) hbox _]
  congr 1

/-! ### Counter arithmetic for the variant board -/
lemma rowZeros_le_nine (b : BoardFun) (r : Fin 9) : rowZeros b r ≤ 9 := by
  have h := Finset.card_filter_le (Finset.univ : Finset (Fin 9))
    (fun c : Fin 9 => b r c = 0)
  simpa [rowZeros] using h

lemma colZeros_le_nine (b : BoardFun) (c : Fin 9) : colZeros b c ≤ 9 := by
  have h := Finset.card_filter_le (Finset.univ : Finset (Fin 9))
    (fun r : Fin 9 => b r c = 0)
  simpa [colZeros] using h

lemma rowZeros_pos (b : BoardFun) (r c : Fin 9) (h0 : b r c = 0) :
    0 < rowZeros b r :=
  Finset.card_pos.mpr ⟨c, by simp [h0]⟩

lemma colZeros_pos (b : BoardFun) (r c : Fin 9) (h0 : b r c = 0) :
    0 < colZeros b c :=
  Finset.card_pos.mpr ⟨r, by simp [h0]⟩

lemma exists_zero_of_rowZeros_pos (b : BoardFun) (r : Fin 9)
    (h : 0 < rowZeros b r) : ∃ c : Fin 9, b r c = 0 := by
  obtain ⟨c, hc⟩ := Finset.card_pos.mp h
  exact ⟨c, (Finset.mem_filter.mp hc).2⟩

lemma rowZeros_setCell_fill (b : BoardFun) (row col : Fin 9) (v : Fin 10)
    (h0 : b row col = 0) (hv : v ≠ 0) :
    rowZeros (setCell b row col v) row + 1 = rowZeros b row := by
  unfold rowZeros
  have hset : (Finset.univ.filter fun c : Fin 9 => setCell b row col v row c = 0)
      = (Finset.univ.filter fun c : Fin 9 => b row c = 0).erase col := by
    ext c
    simp only [Finset.mem_filter, Finset.mem_erase, Finset.mem_univ, true_and]
    by_cases h : c = col
    · subst h
      simp [setCell_same, hv]
    · rw [setCell_other _ _ _ _ _ _ (fun hh => h hh.2)]
      simp [h]
  rw [hset]
  have hmem : col ∈ Finset.univ.filter fun c : Fin 9 => b row c = 0 := by simp [h0]
  rw [Finset.card_erase_of_mem hmem]
  have := Finset.card_pos.mpr ⟨col, hmem⟩
  omega

lemma rowZeros_setCell_other (b : BoardFun) (row col : Fin 9) (v : Fin 10)
    (r : Fin 9) (h : r ≠ row) :
    rowZeros (setCell b row col v) r = rowZeros b r := by
  unfold rowZeros
  congr 1
  ext c
  simp only [Finset.mem_filter, Finset.mem_univ, true_and]
  rw [setCell_other _ _ _ _ _ _ (fun hh => h hh.1)]

lemma colZeros_setCell_fill (b : BoardFun) (row col : Fin 9) (v : Fin 10)
    (h0 : b row col = 0) (hv : v ≠ 0) :
    colZeros (setCell b row col v) col + 1 = colZeros b col := by
  unfold colZeros
  have hset : (Finset.univ.filter fun r : Fin 9 => setCell b row col v r col = 0)
      = (Finset.univ.filter fun r : Fin 9 => b r col = 0).erase row := by
    ext r
    simp only [Finset.mem_filter, Finset.mem_erase, Finset.mem_univ, true_and]
    by_cases h : r = row
    · subst h
      simp [setCell_same, hv]
    · rw [setCell_other _ _ _ _ _ _ (fun hh => h hh.1)]
      simp [h]
  rw [hset]
  have hmem : row ∈ Finset.univ.filter fun r : Fin 9 => b r col = 0 := by simp [h0]
  rw [Finset.card_erase_of_mem hmem]
  have := Finset.card_pos.mpr ⟨row, hmem⟩
  omega

lemma colZeros_setCell_other (b : BoardFun) (row col : Fin 9) (v : Fin 10)
    (c : Fin 9) (h : c ≠ col) :
    colZeros (setCell b row col v) c = colZeros b c := by
  unfold colZeros
  congr 1
  ext r
  simp only [Finset.mem_filter, Finset.mem_univ, true_and]
  rw [setCell_other _ _ _ _ _ _ (fun hh => h hh.2)]

/-! ### Structural equations for the variant move operations -/
lemma makeMoveB_fill (b : Board) (row col : Fin 9) (val : Fin 10)
    (h0 : b.cell row col = 0) (hv : val ≠ 0) :
    b.makeMove row col val =
      { cell := setCell b.cell row col val
        rowRemaining := fun r => if r = row then b.rowRemaining r - 1 else b.rowRemaining r
        colRemaining := fun c => if c = col then b.colRemaining c - 1 else b.colRemaining c
        remaining := b.remaining - 1
        backtracks := b.backtracks } := by
  unfold Board.makeMove
  rw [if_pos ⟨h0, hv⟩]

lemma unmakeMoveB_nonzero (b : Board) (row col : Fin 9)
    (h : b.cell row col ≠ 0) :
    b.unmakeMove row col =
      { cell := setCell b.cell row col 0
        rowRemaining := fun r => if r = row then b.rowRemaining r + 1 else b.rowRemaining r
        colRemaining := fun c => if c = col then b.colRemaining c + 1 else b.colRemaining c
        remaining := b.remaining + 1
        backtracks := b.backtracks + 1 } := by
  unfold Board.unmakeMove
  rw [if_pos h]

lemma invB_makeMove (b : Board) (row col : Fin 9) (val : Fin 10)
    (h0 : b.cell row col = 0) (hv : val ≠ 0) (hinv : InvB b) :
    InvB (b.makeMove row col val) := by
  obtain ⟨h1, h2, h3⟩ := hinv
  rw [makeMoveB_fill b row col val h0 hv]
  refine ⟨?_, ?_, ?_⟩
  · show b.remaining - 1 = (numZeros (setCell b.cell row col val) : Int)
    have := numZeros_setCell_fill b.cell row col val h0 hv
    omega
  · intro r
    show (if r = row then b.rowRemaining r - 1 else b.rowRemaining r) =
      (rowZeros (setCell b.cell row col val) r : Int)
    by_cases hr : r = row
    · subst hr
      rw [if_pos rfl, h2 r]
      have := rowZeros_setCell_fill b.cell r col val h0 hv
      omega
    · rw [if_neg hr, h2 r, rowZeros_setCell_other b.cell row col val r hr]
  · intro c
    show (if c = col then b.colRemaining c - 1 else b.colRemaining c) =
      (colZeros (setCell b.cell row col val) c : Int)
    by_cases hc : c = col
    · subst hc
      rw [if_pos rfl, h3 c]
      have := colZeros_setCell_fill b.cell row c val h0 hv
      omega
    · rw [if_neg hc, h3 c, colZeros_setCell_other b.cell row col val c hc]

section SelectionB

variable (P : Fin 9 → Prop) [DecidablePred P] (cnt : Fin 9 → Int)

/-- The selection fold either passes the state through or lands on a
`P`-element. -/
lemma selStepB_fold_pass :
    ∀ (l : List (Fin 9)) (st : Int × Int),
      l.foldl (selStepB P cnt) st = st ∨
      ∃ j : Fin 9, j ∈ l ∧ P j ∧
        l.foldl (selStepB P cnt) st = ((j.val : Int), cnt j) := by
  intro l
  induction l with
  | nil => exact fun st => Or.inl rfl
  | cons a l ih =>
    intro st
    rw [List.foldl_cons]
    by_cases ha : P a ∧ cnt a < st.2
    · have hstep : selStepB P cnt st a = ((a.val : Int), cnt a) := by
        rw [selStepB, if_pos ha]
      rw [hstep]
      rcases ih ((a.val : Int), cnt a) with hsame | ⟨j, hj, hPj, hres⟩
      · exact Or.inr ⟨a, List.mem_cons_self a l, ha.1, hsame⟩
      · exact Or.inr ⟨j, List.mem_cons_of_mem a hj, hPj, hres⟩
    · have hstep : selStepB P cnt st a = st := by
        rw [selStepB, if_neg ha]
      rw [hstep]
      rcases ih st with hsame | ⟨j, hj, hPj, hres⟩
      · exact Or.inl hsame
      · exact Or.inr ⟨j, List.mem_cons_of_mem a hj, hPj, hres⟩

/-- If some scanned element satisfies `P` with a counter below the running
minimum, the fold result is a `P`-element. -/
lemma selStepB_fold_hit :
    ∀ (l : List (Fin 9)) (st : Int × Int), (∃ i ∈ l, P i ∧ cnt i < st.2) →
      ∃ j : Fin 9, j ∈ l ∧ P j ∧
        l.foldl (selStepB P cnt) st = ((j.val : Int), cnt j) := by
  intro l
  induction l with
  | nil =>
    intro st h
    obtain ⟨i, hi, _⟩ := h
    cases hi
  | cons a l ih =>
    intro st h
    rw [List.foldl_cons]
    by_cases ha : P a ∧ cnt a < st.2
    · have hstep : selStepB P cnt st a = ((a.val : Int), cnt a) := by
        rw [selStepB, if_pos ha]
      rw [hstep]
      rcases selStepB_fold_pass P cnt l ((a.val : Int), cnt a) with hsame | ⟨j, hj, hPj, hres⟩
      · exact ⟨a, List.mem_cons_self a l, ha.1, hsame⟩
      · exact ⟨j, List.mem_cons_of_mem a hj, hPj, hres⟩
    · have hstep : selStepB P cnt st a = st := by
        rw [selStepB, if_neg ha]
      rw [hstep]
      obtain ⟨i, hi, hPi, hlt⟩ := h
      rcases List.mem_cons.mp hi with rfl | hi
      · exact absurd ⟨hPi, hlt⟩ ha
      · obtain ⟨j, hj, hPj, hres⟩ := ih st ⟨i, hi, hPi, hlt⟩
        exact ⟨j, List.mem_cons_of_mem a hj, hPj, hres⟩

end SelectionB

/-- Variant `NextEmptyCell` under the counter invariants: on a board with at
least one empty cell it returns in-range coordinates of an empty cell. -/
lemma nextEmptyCellB_spec (b : Board) (hinv : InvB b) (hz : numZeros b.cell ≠ 0) :
    ∃ row col : Fin 9, nextEmptyCellB b = .ok ((row.val : Int), (col.val : Int)) ∧
      b.cell row col = 0 := by
  obtain ⟨h1, h2, h3⟩ := hinv
  obtain ⟨rc0, hrc0⟩ := exists_empty_of_numZeros_ne_zero b.cell hz
  -- row phase: some row has a positive remaining counter below the sentinel
  have hhit : ∃ i ∈ List.finRange 9,
      (0 < b.rowRemaining i) ∧ b.rowRemaining i < (((-1 : Int), (10 : Int))).2 := by
    refine ⟨rc0.1, List.mem_finRange _, ?_, ?_⟩
    · rw [h2 rc0.1]
      have := rowZeros_pos b.cell rc0.1 rc0.2 hrc0
      omega
    · show b.rowRemaining rc0.1 < (10 : Int)
      rw [h2 rc0.1]
      have := rowZeros_le_nine b.cell rc0.1
      omega
  obtain ⟨rowF, _, hProw, hrowEq⟩ := selStepB_fold_hit (fun i => 0 < b.rowRemaining i)
    b.rowRemaining (List.finRange 9) ((-1 : Int), (10 : Int)) hhit
  have hrowSel : (List.finRange 9).foldl
      (fun st (i : Fin 9) =>
        if 0 < b.rowRemaining i ∧ b.rowRemaining i < st.2
        then ((i.val : Int), b.rowRemaining i) else st) ((-1 : Int), (10 : Int)) =
      ((rowF.val : Int), b.rowRemaining rowF) := by
    rw [foldl_funext _ (selStepB (fun i => 0 < b.rowRemaining i) b.rowRemaining)
      (fun st i => by rw [selStepB]) (List.finRange 9) ((-1 : Int), (10 : Int))]
    exact hrowEq
  -- the selected row has an empty cell
  have hrZ : 0 < rowZeros b.cell rowF := by
    have := h2 rowF
    omega
  obtain ⟨c1, hc1⟩ := exists_zero_of_rowZeros_pos b.cell rowF hrZ
  -- column phase: passes the checked access, then selects an empty column
  have hrowInt : (0 : Int) ≤ (rowF.val : Int) ∧ (rowF.val : Int) < 9 := by
    have := rowF.isLt
    omega
  have hcolPt : ∀ (st : Int × Int), ∀ i ∈ List.finRange 9,
      (do
        let v ← boardAtB b (rowF.val : Int) (i.val : Int)
        pure (if v = 0 ∧ 0 < b.colRemaining i ∧ b.colRemaining i < st.2
              then ((i.val : Int), b.colRemaining i) else st) :
        Except GoPanic (Int × Int)) =
      .ok (if b.cell rowF i = 0 ∧ 0 < b.colRemaining i ∧ b.colRemaining i < st.2
           then ((i.val : Int), b.colRemaining i) else st) := by
    intro st i _
    rw [boardAtB_ok b _ _ hrowInt (by have := i.isLt; omega)]
    rw [bind_ok_eq]
    have hmkr : (⟨((rowF.val : Int)).toNat, by omega⟩ : Fin 9) = rowF := by
      refine Fin.ext ?_
      show ((rowF.val : Int)).toNat = rowF.val
      omega
    have hmki : (⟨((i.val : Int)).toNat, by omega⟩ : Fin 9) = i := by
      refine Fin.ext ?_
      show ((i.val : Int)).toNat = i.val
      omega
    rw [hmkr, hmki]
    rfl
  have hchit : ∃ i ∈ List.finRange 9,
      (b.cell rowF i = 0 ∧ 0 < b.colRemaining i) ∧
        b.colRemaining i < (((-1 : Int), (10 : Int))).2 := by
    refine ⟨c1, List.mem_finRange _, ⟨hc1, ?_⟩, ?_⟩
    · rw [h3 c1]
      have := colZeros_pos b.cell rowF c1 hc1
      omega
    · show b.colRemaining c1 < (10 : Int)
      rw [h3 c1]
      have := colZeros_le_nine b.cell c1
      omega
  obtain ⟨colF, _, hPcol, hcolEq⟩ := selStepB_fold_hit
    (fun i => b.cell rowF i = 0 ∧ 0 < b.colRemaining i)
    b.colRemaining (List.finRange 9) ((-1 : Int), (10 : Int)) hchit
  have hcolSel : (List.finRange 9).foldl
      (fun st (i : Fin 9) =>
        if b.cell rowF i = 0 ∧ 0 < b.colRemaining i ∧ b.colRemaining i < st.2
        then ((i.val : Int), b.colRemaining i) else st) ((-1 : Int), (10 : Int)) =
      ((colF.val : Int), b.colRemaining colF) := by
    rw [foldl_funext _ (selStepB (fun i => b.cell rowF i = 0 ∧ 0 < b.colRemaining i)
        b.colRemaining)
      (fun st i => by
        rw [selStepB]
        by_cases h : b.cell rowF i = 0 ∧ 0 < b.colRemaining i ∧ b.colRemaining i < st.2
        · rw [if_pos h, if_pos ⟨⟨h.1, h.2.1⟩, h.2.2⟩]
        · rw [if_neg h, if_neg (fun hh => h ⟨hh.1.1, hh.1.2, hh.2⟩)])
      (List.finRange 9) ((-1 : Int), (10 : Int))]
    exact hcolEq
  refine ⟨rowF, colF, ?_, hPcol.1⟩
  unfold nextEmptyCellB
  dsimp only
  rw [hrowSel]
  dsimp only
  rw [foldlM_eq_ok _
    (fun st (i : Fin 9) =>
      if b.cell rowF i = 0 ∧ 0 < b.colRemaining i ∧ b.colRemaining i < st.2
      then ((i.val : Int), b.colRemaining i) else st)
    (List.finRange 9) hcolPt ((-1 : Int), (10 : Int)), bind_ok_eq]
  rw [hcolSel]
  rfl

lemma makeMoveB_cell (b : Board) (row col : Fin 9) (val : Fin 10) :
    (b.makeMove row col val).cell = setCell b.cell row col val := by
  unfold Board.makeMove
  split <;> rfl

lemma makeMoveB_remaining (b : Board) (row col : Fin 9) (val : Fin 10)
    (h0 : b.cell row col = 0) (hv : val ≠ 0) :
    (b.makeMove row col val).remaining = b.remaining - 1 := by
  rw [makeMoveB_fill b row col val h0 hv]

lemma makeMoveB_rowRem (b : Board) (row col : Fin 9) (val : Fin 10)
    (h0 : b.cell row col = 0) (hv : val ≠ 0) :
    (b.makeMove row col val).rowRemaining =
      fun r => if r = row then b.rowRemaining r - 1 else b.rowRemaining r := by
  rw [makeMoveB_fill b row col val h0 hv]

lemma makeMoveB_colRem (b : Board) (row col : Fin 9) (val : Fin 10)
    (h0 : b.cell row col = 0) (hv : val ≠ 0) :
    (b.makeMove row col val).colRemaining =
      fun c => if c = col then b.colRemaining c - 1 else b.colRemaining c := by
  rw [makeMoveB_fill b row col val h0 hv]

lemma unmakeMoveB_cell (b : Board) (row col : Fin 9) (h : b.cell row col ≠ 0) :
    (b.unmakeMove row col).cell = setCell b.cell row col 0 := by
  rw [unmakeMoveB_nonzero b row col h]

lemma unmakeMoveB_remaining (b : Board) (row col : Fin 9) (h : b.cell row col ≠ 0) :
    (b.unmakeMove row col).remaining = b.remaining + 1 := by
  rw [unmakeMoveB_nonzero b row col h]

lemma unmakeMoveB_rowRem (b : Board) (row col : Fin 9) (h : b.cell row col ≠ 0) :
    (b.unmakeMove row col).rowRemaining =
      fun r => if r = row then b.rowRemaining r + 1 else b.rowRemaining r := by
  rw [unmakeMoveB_nonzero b row col h]

lemma unmakeMoveB_colRem (b : Board) (row col : Fin 9) (h : b.cell row col ≠ 0) :
    (b.unmakeMove row col).colRemaining =
      fun c => if c = col then b.colRemaining c + 1 else b.colRemaining c := by
  rw [unmakeMoveB_nonzero b row col h]

lemma tryCandidatesB_spec (fuel : Nat)
    (IH : ∀ b : Board, InvB b → NoConflicts b.cell → SolverSpecB fuel b)
    (row col : Fin 9) :
    ∀ (vals : List (Fin 10)) (b : Board), InvB b → NoConflicts b.cell →
      b.cell row col = 0 →
      ∀ cands, cands = cellCandidatesCore b.cell row col →
      (tryCandidatesB (recursiveSolverB fuel) row col cands b vals = none →
        fuel < numZeros b.cell) ∧
      (∀ p, tryCandidatesB (recursiveSolverB fuel) row col cands b vals =
          some (.error p) → False) ∧
      (∀ b1, tryCandidatesB (recursiveSolverB fuel) row col cands b vals =
          some (.ok (true, b1)) →
        Extends b.cell b1.cell ∧ InvB b1 ∧ NoConflicts b1.cell ∧ b1.remaining = 0) ∧
      (∀ b1, tryCandidatesB (recursiveSolverB fuel) row col cands b vals =
          some (.ok (false, b1)) →
        b1.cell = b.cell ∧ b1.remaining = b.remaining ∧
        b1.rowRemaining = b.rowRemaining ∧ b1.colRemaining = b.colRemaining ∧
        ∀ val ∈ vals, cands.getD val.val false = true →
          ∀ S, ¬ Completion (setCell b.cell row col val) S) := by
  intro vals
  induction vals with
  | nil =>
    intro b _ _ _ cands _
    refine ⟨fun h => ?_, fun p h => ?_, fun b1 h => ?_, fun b1 h => ?_⟩
    · simp [tryCandidatesB] at h
    · simp [tryCandidatesB] at h
    · simp [tryCandidatesB] at h
    · simp only [tryCandidatesB, Option.some.injEq, Except.ok.injEq,
        Prod.mk.injEq] at h
      exact ⟨by rw [h.2], by rw [h.2], by rw [h.2], by rw [h.2], by simp⟩
  | cons val vals ihv =>
    intro b hinv hnc h0 cands hcands
    by_cases havail : cands.getD val.val false = true
    · -- the candidate is tried
      have hvne : val ≠ 0 := by
        intro hv0
        rw [hv0, hcands, Fin.val_zero, cellCandidatesCore_zero] at havail
        exact Bool.false_ne_true havail
      have hcand : (cellCandidatesCore b.cell row col).getD val.val false = true := by
        rw [← hcands]
        exact havail
      have hmkb : (b.makeMove row col val).cell = setCell b.cell row col val :=
        makeMoveB_cell b row col val
      have hinv1 : InvB (b.makeMove row col val) :=
        invB_makeMove b row col val h0 hvne hinv
      have hnc1 : NoConflicts (b.makeMove row col val).cell := by
        rw [hmkb]
        exact noConflicts_setCell b.cell row col val hnc h0 hvne hcand
      have hnum : numZeros (setCell b.cell row col val) + 1 = numZeros b.cell :=
        numZeros_setCell_fill b.cell row col val h0 hvne
      obtain ⟨ihn, ihe, iht, ihf⟩ := IH (b.makeMove row col val) hinv1 hnc1
      rcases hres : recursiveSolverB fuel (b.makeMove row col val) with - | e
      · -- inner call ran out of fuel
        have heq : tryCandidatesB (recursiveSolverB fuel) row col cands b (val :: vals) =
            none := by
          simp only [tryCandidatesB, havail, if_true, hres]
        have hle := ihn hres
        rw [hmkb] at hle
        refine ⟨fun _ => by omega, fun p h => ?_, fun b1 h => ?_, fun b1 h => ?_⟩
        · rw [heq] at h; cases h
        · rw [heq] at h; cases h
        · rw [heq] at h; cases h
      · rcases e with p | ⟨s, b1⟩
        · -- inner call panicked: impossible on invariant boards
          exact (ihe p hres).elim
        · cases s
          · -- inner call failed: undo and continue
            obtain ⟨hb1, hr1, hrr1, hcc1, hncomp⟩ := ihf b1 hres
            rw [hmkb] at hb1 hncomp
            rw [makeMoveB_remaining b row col val h0 hvne] at hr1
            rw [makeMoveB_rowRem b row col val h0 hvne] at hrr1
            rw [makeMoveB_colRem b row col val h0 hvne] at hcc1
            have hnz1 : b1.cell row col ≠ 0 := by
              rw [hb1, setCell_same]
              exact hvne
            have hbg : (b1.unmakeMove row col).cell = b.cell := by
              rw [unmakeMoveB_cell b1 row col hnz1, hb1,
                setCell_cancel b.cell row col val h0]
            have hrg : (b1.unmakeMove row col).remaining = b.remaining := by
              rw [unmakeMoveB_remaining b1 row col hnz1, hr1]
              omega
            have hrrg : (b1.unmakeMove row col).rowRemaining = b.rowRemaining := by
              rw [unmakeMoveB_rowRem b1 row col hnz1, hrr1]
              funext r
              show (if r = row
                then (if r = row then b.rowRemaining r - 1 else b.rowRemaining r) + 1
                else (if r = row then b.rowRemaining r - 1 else b.rowRemaining r)) =
                b.rowRemaining r
              by_cases hr : r = row
              · rw [if_pos hr, if_pos hr]
                omega
              · rw [if_neg hr, if_neg hr]
            have hccg : (b1.unmakeMove row col).colRemaining = b.colRemaining := by
              rw [unmakeMoveB_colRem b1 row col hnz1, hcc1]
              funext c
              show (if c = col
                then (if c = col then b.colRemaining c - 1 else b.colRemaining c) + 1
                else (if c = col then b.colRemaining c - 1 else b.colRemaining c)) =
                b.colRemaining c
              by_cases hc : c = col
              · rw [if_pos hc, if_pos hc]
                omega
              · rw [if_neg hc, if_neg hc]
            have heq : tryCandidatesB (recursiveSolverB fuel) row col cands b (val :: vals) =
                tryCandidatesB (recursiveSolverB fuel) row col cands
                  (b1.unmakeMove row col) vals := by
              simp only [tryCandidatesB, havail, if_true, hres]
            have hinv2 : InvB (b1.unmakeMove row col) := by
              obtain ⟨i1, i2, i3⟩ := hinv
              refine ⟨?_, fun r => ?_, fun c => ?_⟩
              · rw [hrg, hbg]
                exact i1
              · rw [congrFun hrrg r, hbg]
                exact i2 r
              · rw [congrFun hccg c, hbg]
                exact i3 c
            have hnc2 : NoConflicts (b1.unmakeMove row col).cell := by
              rw [hbg]
              exact hnc
            have h02 : (b1.unmakeMove row col).cell row col = 0 := by
              rw [hbg]
              exact h0
            have hcands2 : cands =
                cellCandidatesCore (b1.unmakeMove row col).cell row col := by
              rw [hbg]
              exact hcands
            obtain ⟨ihn2, ihe2, iht2, ihf2⟩ :=
              ihv (b1.unmakeMove row col) hinv2 hnc2 h02 cands hcands2
            refine ⟨fun h => ?_, fun p h => ?_, fun b2 h => ?_, fun b2 h => ?_⟩
            · rw [heq] at h
              have := ihn2 h
              rw [hbg] at this
              exact this
            · rw [heq] at h
              exact ihe2 p h
            · rw [heq] at h
              obtain ⟨he, hv1, hv2, hv3⟩ := iht2 b2 h
              rw [hbg] at he
              exact ⟨he, hv1, hv2, hv3⟩
            · rw [heq] at h
              obtain ⟨he1, he2, he3, he4, he5⟩ := ihf2 b2 h
              rw [hbg] at he1
              rw [hrg] at he2
              rw [hrrg] at he3
              rw [hccg] at he4
              refine ⟨he1, he2, he3, he4, fun v hv hav S => ?_⟩
              rcases List.mem_cons.mp hv with rfl | hv
              · exact hncomp S
              · have := he5 v hv hav S
                rw [hbg] at this
                exact this
          · -- inner call succeeded
            obtain ⟨he, hv1, hv2, hv3⟩ := iht b1 hres
            rw [hmkb] at he
            have heq : tryCandidatesB (recursiveSolverB fuel) row col cands b (val :: vals) =
                some (.ok (true, b1)) := by
              simp only [tryCandidatesB, havail, if_true, hres]
            have hext : Extends b.cell b1.cell :=
              extends_trans (extends_setCell b.cell row col val h0) he
            refine ⟨fun h => ?_, fun p h => ?_, fun b2 h => ?_, fun b2 h => ?_⟩
            · rw [heq] at h; cases h
            · rw [heq] at h
              simp at h
            · rw [heq] at h
              simp only [Option.some.injEq, Except.ok.injEq, Prod.mk.injEq,
                true_and] at h
              rw [← h]
              exact ⟨hext, hv1, hv2, hv3⟩
            · rw [heq] at h
              simp at h
    · -- the candidate is skipped
      have havf : cands.getD val.val false = false := by
        cases hcv : cands.getD val.val false
        · rfl
        · exact absurd hcv havail
      have heq : tryCandidatesB (recursiveSolverB fuel) row col cands b (val :: vals) =
          tryCandidatesB (recursiveSolverB fuel) row col cands b vals := by
        simp only [tryCandidatesB, havf, Bool.false_eq_true, if_false]
      obtain ⟨ihn2, ihe2, iht2, ihf2⟩ := ihv b hinv hnc h0 cands hcands
      refine ⟨fun h => ?_, fun p h => ?_, fun b2 h => ?_, fun b2 h => ?_⟩
      · rw [heq] at h
        exact ihn2 h
      · rw [heq] at h
        exact ihe2 p h
      · rw [heq] at h
        exact iht2 b2 h
      · rw [heq] at h
        obtain ⟨he1, he2, he3, he4, he5⟩ := ihf2 b2 h
        refine ⟨he1, he2, he3, he4, fun v hv hav S => ?_⟩
        rcases List.mem_cons.mp hv with rfl | hv
        · exact absurd hav havail
        · exact he5 v hv hav S

lemma solver_masterB : ∀ (fuel : Nat) (b : Board), InvB b → NoConflicts b.cell →
    SolverSpecB fuel b := by
  intro fuel
  induction fuel with
  | zero =>
    intro b _ _
    refine ⟨fun _ => Nat.zero_le _, fun p h => ?_, fun b1 h => ?_, fun b1 h => ?_⟩ <;>
      simp [recursiveSolverB] at h
  | succ fuel ih =>
    intro b hinv hnc
    by_cases h0 : b.remaining = 0
    · have heq : recursiveSolverB (fuel + 1) b = some (.ok (true, b)) := by
        simp [recursiveSolverB, h0]
      refine ⟨fun h => ?_, fun p h => ?_, fun b1 h => ?_, fun b1 h => ?_⟩
      · rw [heq] at h; cases h
      · rw [heq] at h; simp at h
      · rw [heq] at h
        simp only [Option.some.injEq, Except.ok.injEq, Prod.mk.injEq, true_and] at h
        rw [← h]
        exact ⟨extends_refl b.cell, hinv, hnc, h0⟩
      · rw [heq] at h; simp at h
    · have hz : numZeros b.cell ≠ 0 := by
        intro hzz
        apply h0
        rw [hinv.1, hzz]
        rfl
      obtain ⟨rowF, colF, hnext, hempty⟩ := nextEmptyCellB_spec b hinv hz
      have hcond : (0 : Int) ≤ (rowF.val : Int) ∧ (rowF.val : Int) < 9 ∧
          (0 : Int) ≤ (colF.val : Int) ∧ (colF.val : Int) < 9 := by
        have := rowF.isLt
        have := colF.isLt
        omega
      have hmkrF : (⟨((rowF.val : Int)).toNat, by omega⟩ : Fin 9) = rowF := by
        refine Fin.ext ?_
        show ((rowF.val : Int)).toNat = rowF.val
        omega
      have hmkcF : (⟨((colF.val : Int)).toNat, by omega⟩ : Fin 9) = colF := by
        refine Fin.ext ?_
        show ((colF.val : Int)).toNat = colF.val
        omega
      have heq : recursiveSolverB (fuel + 1) b =
          tryCandidatesB (recursiveSolverB fuel) rowF colF
            (cellCandidatesCore b.cell rowF colF) b (List.finRange 10) := by
        simp only [recursiveSolverB, hnext, cellCandidatesB_ok]
        rw [if_neg h0]
        rw [dif_pos hcond]
        rw [hmkrF, hmkcF]
      obtain ⟨ln, le, lt, lf⟩ := tryCandidatesB_spec fuel ih rowF colF
        (List.finRange 10) b hinv hnc hempty _ rfl
      refine ⟨fun h => ?_, fun p h => ?_, fun b1 h => ?_, fun b1 h => ?_⟩
      · rw [heq] at h
        have := ln h
        omega
      · rw [heq] at h
        exact le p h
      · rw [heq] at h
        exact lt b1 h
      · rw [heq] at h
        obtain ⟨hb, hr, hrr, hcc, hv⟩ := lf b1 h
        refine ⟨hb, hr, hrr, hcc, fun S hS => ?_⟩
        have hcand := completion_value_candidate hS rowF colF hempty
        refine hv (S rowF colF) (List.mem_finRange _) hcand S ⟨hS.1, hS.2.1, ?_⟩
        intro r c hne
        by_cases hp : r = rowF ∧ c = colF
        · rw [hp.1, hp.2, setCell_same]
        · rw [setCell_other _ _ _ _ _ _ hp] at hne
          rw [setCell_other _ _ _ _ _ _ hp]
          exact hS.2.2 r c hne

/-- C9 (amended): on every initial position satisfying the data-model
invariants, the full-board-scan MRV solver over `Game` and the per-row/
per-column counter solver over `Board` both return normally (no panic,
given fuel above the number of empty cells) and report the same solved
boolean.  (The final boards can differ; see the counterexample.) -/
theorem C9_solvers_agree_on_solved (g : Game) (b : Board) (fuel : Nat)
    (hcells : b.cell = g.board) (hg : RemInv g) (hb : InvB b)
    (hnc : NoConflicts g.board) (hfuel : numZeros g.board < fuel) :
    ∃ (p : Bool × Game) (q : Bool × Board),
      recursiveSolver fuel g = some p ∧
      recursiveSolverB fuel b = some (.ok q) ∧ p.1 = q.1 := by
  obtain ⟨gn, gt, gf⟩ := solver_master fuel g hg hnc
  have hncb : NoConflicts b.cell := by
    rw [hcells]
    exact hnc
  obtain ⟨bn, be, bt, bf⟩ := solver_masterB fuel b hb hncb
  rcases hpg : recursiveSolver fuel g with - | ⟨s, g1⟩
  · exact absurd (gn hpg) (Nat.not_le.mpr hfuel)
  rcases hqb : recursiveSolverB fuel b with - | (pe | ⟨s', b1⟩)
  · have hle := bn hqb
    rw [hcells] at hle
    exact absurd hle (Nat.not_le.mpr hfuel)
  · exact (be pe hqb).elim
  refine ⟨(s, g1), (s', b1), rfl, rfl, ?_⟩
  show s = s'
  cases s <;> cases s'
  · rfl
  · -- Game failed but Board solved: the Board result is a completion of the
    -- shared start position, contradicting the Game failure certificate
    obtain ⟨he, hinv1, hnc1, hrem1⟩ := bt b1 hqb
    obtain ⟨_, _, hnone⟩ := gf g1 hpg
    exfalso
    have h2 : b1.remaining = (numZeros b1.cell : Int) := hinv1.1
    have hz : numZeros b1.cell = 0 := by omega
    refine hnone b1.cell ⟨full_of_numZeros_eq_zero b1.cell hz, hnc1, ?_⟩
    rw [← hcells]
    exact he
  · -- Game solved but Board failed: symmetric contradiction
    obtain ⟨he, hrem1, hnc1, hrem0⟩ := gt g1 hpg
    obtain ⟨_, _, _, _, hnone⟩ := bf b1 hqb
    exfalso
    have h2 : g1.remaining = (numZeros g1.board : Int) := hrem1
    have hz : numZeros g1.board = 0 := by omega
    refine hnone g1.board ?_
    rw [hcells]
    exact ⟨full_of_numZeros_eq_zero g1.board hz, hnc1, he⟩
  · rfl

/-- C9 counterexample: on the same start position `p9` both solvers report
solved, but their selection heuristics visit cells in different orders and
commit different completions — the `Game` solver leaves 4 at (0,6), the
`Board` variant leaves 7 there.  The spec's claim that the two variants
produce "the same final board state" is false. -/
theorem C9_counterexample :
    b9.cell = g9.board ∧
    (recursiveSolver 11 g9).map Prod.fst = some true ∧
    (recursiveSolverB 11 b9).map (fun e => e.toOption.map Prod.fst) =
      some (some true) ∧
    (recursiveSolver 11 g9).map (fun p => (p.2.board 0 6).val) = some 4 ∧
    (recursiveSolverB 11 b9).map (fun e => e.toOption.map fun q => (q.2.cell 0 6).val) =
      some (some 7) := by
  refine ⟨rfl, ?_, ?_, ?_, ?_⟩ <;> rfl

/-- Witness for C9 (amended): the hypotheses of
`C9_solvers_agree_on_solved` hold at the concrete pair `gW1`/`bW1` and the
agreement conclusion follows by applying the theorem there. -/
theorem C9_witness :
    bW1.cell = gW1.board ∧ RemInv gW1 ∧ InvB bW1 ∧ NoConflicts gW1.board ∧
      numZeros gW1.board < 2 ∧
      ∃ (p : Bool × Game) (q : Bool × Board),
        recursiveSolver 2 gW1 = some p ∧
        recursiveSolverB 2 bW1 = some (.ok q) ∧ p.1 = q.1 :=
  ⟨rfl, by decide, by decide, by decide, by decide,
    C9_solvers_agree_on_solved gW1 bW1 2 rfl (by decide) (by decide) (by decide)
      (by decide)⟩

end Sudoku
